import Mathlib

/-!
Verification of the gc-playground tracing garbage collector (src/lib.rs).

The Rust heap stores `ObjectId -> Rc<Header<T>>`; a `Root` is an extra strong
reference held by the caller, a `Gc` is a weak reference (either held by the
caller or embedded in a payload as a graph edge).  We embed the heap table as
an association list of headers, where a payload is represented by the list of
edges its `Trace` implementation reports.  The environment of caller-held
handles is modelled by two multisets of object ids: `roots` (live `Root`
handles, i.e. strong references beyond the one the heap itself holds) and
`gcs` (caller-held `Gc` handles, i.e. weak references not embedded in any
payload).  `Rc::strong_count` and `Rc::weak_count` are derived from these.
Panics (`unwrap`, `expect`, division by zero) are modelled by `Option.none`.
-/

namespace GcPlayground

/-- `pub type ObjectId = usize`. -/
abbrev ObjectId := Nat

/-- `struct Header<T> { marked: Cell<bool>, obj: T }`; the payload `obj` is
represented by the list of Gc edges its `Trace` implementation reports. -/
structure Header where
  marked : Bool
  edges : List ObjectId
deriving DecidableEq, Repr

/-- The heap object table `RefCell<HashMap<ObjectId, Rc<Header<T>>>>`. -/
abbrev Table := List (ObjectId × Header)

/-- The set of ids present in the table. -/
def keysOf (t : Table) : List ObjectId := t.map Prod.fst

/-- Table lookup (`HashMap::get`). -/
def lookupT : Table → ObjectId → Option Header
  | [], _ => none
  | (j, h) :: rest, i => if j = i then some h else lookupT rest i

/-- `Rc::strong_count` of the header of `i`: the heap table holds one strong
reference, and each live `Root` holds another. -/
def strong_count (roots : List ObjectId) (i : ObjectId) : Nat :=
  1 + roots.count i

/-- Number of weak references to `i` embedded as edges in payloads of `t`. -/
def edgeRefs (t : Table) (i : ObjectId) : Nat :=
  (t.map (fun p => p.2.edges.count i)).sum

/-- `Rc::weak_count` of the header of `i`: caller-held `Gc` handles plus `Gc`
edges embedded inside payloads of live objects. -/
def weak_count (gcs : List ObjectId) (t : Table) (i : ObjectId) : Nat :=
  gcs.count i + edgeRefs t i

/-- One `objects.retain(|_, h| strong_count > 1 || weak_count > 0)` pass of
the pre-pass pruning loop in `Heap::collect`. -/
def prepassStep (roots gcs : List ObjectId) (t : Table) : Table :=
  t.filter fun p =>
    decide (1 < strong_count roots p.1) || decide (0 < weak_count gcs t p.1)

/-- The pre-pass pruning loop of `Heap::collect`: retain until the table size
stops shrinking.  The loop runs at most `t.length` times (each iteration but
the last strictly shrinks the table), so the fuel given in `collectT` always
suffices. -/
def prepassLoop (roots gcs : List ObjectId) : Nat → Table → Table
  | 0, t => t
  | fuel + 1, t =>
    let t1 := prepassStep roots gcs t
    if t1.length = t.length then t1 else prepassLoop roots gcs fuel t1

/-- `header.mark()`: set the mark bit of the header of `i`. -/
def setMark (t : Table) (i : ObjectId) : Table :=
  t.map fun p => if p.1 = i then (p.1, { p.2 with marked := true }) else p

/-- Root set construction in `Heap::collect`: every table entry with more
strong references than the one held by the heap itself. -/
def rootSet (roots : List ObjectId) (t : Table) : List ObjectId :=
  (t.filter fun p => decide (1 < strong_count roots p.1)).map Prod.fst

/-- The worklist traversal `Heap::mark`.  The head of `work` is the top of the
`Tracer` stack; popping an id resolves its weak handle (`upgrade().unwrap()`,
`none` on a dangling target), and marking an unmarked object pushes the edges
its payload reports (reversed, since `Vec::pop` takes the most recently pushed
edge first).  The fuel passed by `collectT` is proven sufficient. -/
def markLoop : Nat → Table → List ObjectId → Option Table
  | _, t, [] => some t
  | 0, _, _ :: _ => none
  | fuel + 1, t, i :: work =>
    match lookupT t i with
    | none => none
    | some h =>
      if h.marked then markLoop fuel t work
      else markLoop fuel (setMark t i) (h.edges.reverse ++ work)

/-- `Heap::sweep`: retain marked entries, then clear every mark bit. -/
def sweep (t : Table) : Table :=
  (t.filter fun p => p.2.marked).map fun p => (p.1, { p.2 with marked := false })

/-- Total number of edges stored in the table (a fuel bound for `markLoop`). -/
def totalEdges (t : Table) : Nat :=
  (t.map (fun p => p.2.edges.length)).sum

/-- The pre-pass pruning phase of `Heap::collect`, with its (sufficient)
fuel. -/
def prepassT (roots gcs : List ObjectId) (t : Table) : Table :=
  prepassLoop roots gcs (t.length + 1) t

/-- `Heap::collect` on the table, given the environment of live handles:
early return on an empty table, pre-pass pruning, root set construction, mark
and sweep; returns the new table and `starting_count - ending_count`. -/
def collectT (roots gcs : List ObjectId) (t : Table) : Option (Table × Nat) :=
  if t.isEmpty then some (t, 0)
  else
    let starting_count := t.length
    let t1 := prepassT roots gcs t
    let seeds := rootSet roots t1
    match markLoop (seeds.length + totalEdges t1 + 1) t1 seeds with
    | none => none
    | some t2 =>
      let t3 := sweep t2
      some (t3, starting_count - t3.length)

/-- Modelled from the spec: the collection algorithm with the pre-pass
pruning phase omitted, relying solely on mark-and-sweep (section 9 of the
design notes says an implementation may do so); used to compare against
`collectT`, which is translated from the source. -/
def collectNoPrepass (roots _gcs : List ObjectId) (t : Table) : Option (Table × Nat) :=
  if t.isEmpty then some (t, 0)
  else
    let starting_count := t.length
    let seeds := rootSet roots t
    match markLoop (seeds.length + totalEdges t + 1) t seeds with
    | none => none
    | some t2 =>
      let t3 := sweep t2
      some (t3, starting_count - t3.length)

/-- `pub struct Heap<T>` with its table, monotonic id counter and collection
threshold. -/
structure Heap where
  objects : Table
  next_id : ObjectId
  collect_threshold : Nat
deriving DecidableEq, Repr

/-- `Heap::new(collect_threshold)`. -/
def Heap.new (collect_threshold : Nat) : Heap :=
  { objects := [], next_id := 0, collect_threshold := collect_threshold }

/-- `Heap::object_count`. -/
def object_count (h : Heap) : Nat := h.objects.length

/-- The Rust `%` operator on `usize`, which panics when the divisor is 0. -/
def safeMod (a b : Nat) : Option Nat :=
  if b = 0 then none else some (a % b)

/-- The heap together with the environment of caller-held handles.
`autoCollects` instruments the number of threshold-triggered collections run
inside `allocate` (it is observation only; no operation reads it). -/
structure State where
  heap : Heap
  roots : List ObjectId
  gcs : List ObjectId
  autoCollects : Nat
deriving DecidableEq, Repr

/-- `Heap::allocate`: take the next id and bump the counter; if
`id % collect_threshold == 0`, run a full collection before inserting the new
object (during that collection the pending payload is already alive, so the
`Gc` edges it holds count as weak references); then insert a header with
`marked = false` and hand the caller a `Root`. -/
def allocate (s : State) (payloadEdges : List ObjectId) : Option State :=
  (safeMod s.heap.next_id s.heap.collect_threshold).bind fun r =>
    if r = 0 then
      (collectT s.roots (payloadEdges ++ s.gcs) s.heap.objects).map fun pr =>
        { heap := { objects := (s.heap.next_id, ⟨false, payloadEdges⟩) :: pr.1,
                    next_id := s.heap.next_id + 1,
                    collect_threshold := s.heap.collect_threshold },
          roots := s.heap.next_id :: s.roots,
          gcs := s.gcs,
          autoCollects := s.autoCollects + 1 }
    else
      some { heap := { objects := (s.heap.next_id, ⟨false, payloadEdges⟩) :: s.heap.objects,
                       next_id := s.heap.next_id + 1,
                       collect_threshold := s.heap.collect_threshold },
             roots := s.heap.next_id :: s.roots,
             gcs := s.gcs,
             autoCollects := s.autoCollects }

/-- The operations a host can perform on the public API: allocate a payload
(whose trace reports the given edges), drop a `Root`, convert a `Root` into a
`Gc` (`Root::to_gc`), derive a `Gc` while keeping the `Root` (`Root::as_gc`),
drop a caller-held `Gc`, or call `Heap::collect`. -/
inductive Action where
  | alloc (edges : List ObjectId)
  | dropRoot (i : ObjectId)
  | rootToGc (i : ObjectId)
  | rootAsGc (i : ObjectId)
  | dropGc (i : ObjectId)
  | collect
deriving DecidableEq, Repr

/-- Apply one action to the state; a host can only drop or convert handles it
actually holds. -/
def applyAction (s : State) : Action → Option State
  | .alloc edges => allocate s edges
  | .dropRoot i =>
    if i ∈ s.roots then some { s with roots := s.roots.erase i } else none
  | .rootToGc i =>
    if i ∈ s.roots then
      some { s with roots := s.roots.erase i, gcs := i :: s.gcs }
    else none
  | .rootAsGc i =>
    if i ∈ s.roots then some { s with gcs := i :: s.gcs } else none
  | .dropGc i =>
    if i ∈ s.gcs then some { s with gcs := s.gcs.erase i } else none
  | .collect =>
    (collectT s.roots s.gcs s.heap.objects).map fun pr =>
      { s with heap := { s.heap with objects := pr.1 } }

/-- A freshly constructed heap with no live handles. -/
def initState (threshold : Nat) : State :=
  { heap := Heap.new threshold, roots := [], gcs := [], autoCollects := 0 }

/-- Run a sequence of actions. -/
def exec (s : State) : List Action → Option State
  | [] => some s
  | a :: acts =>
    match applyAction s a with
    | none => none
    | some s1 => exec s1 acts

/-- `Weak::upgrade` of the handle of `i`: succeeds exactly while the header of
`i` is still alive, i.e. present in the table (every live `Root` target is in
the table, so table membership is aliveness). -/
def upgrade (t : Table) (i : ObjectId) : Option Header := lookupT t i

/-- `Gc::deref`: upgrade the weak handle and read the payload (represented by
the edge list its trace reports); `none` models the
`expect("object should still be alive")` panic. -/
def derefGc (t : Table) (i : ObjectId) : Option (List ObjectId) :=
  (upgrade t i).map Header.edges

/-- Payload `j` holds a `Gc` edge to `k`. -/
def hasEdge (t : Table) (j k : ObjectId) : Prop :=
  ∃ h, lookupT t j = some h ∧ k ∈ h.edges

/-- Reachability along `Gc` edges reported by the payloads of `t`. -/
inductive Reaches (t : Table) : ObjectId → ObjectId → Prop
  | refl (i : ObjectId) : Reaches t i i
  | step {i j k : ObjectId} : hasEdge t i j → Reaches t j k → Reaches t i k

/-- Membership in the transitive closure, over `Gc` edges, of the objects that
currently have at least one live `Root` handle. -/
def RootReaches (t : Table) (roots : List ObjectId) (k : ObjectId) : Prop :=
  ∃ s, s ∈ keysOf t ∧ 0 < roots.count s ∧ Reaches t s k

/-- The header of `i` is present and marked. -/
def isMarked (t : Table) (i : ObjectId) : Prop :=
  ∃ h, lookupT t i = some h ∧ h.marked = true

/-- Datatype invariant of reachable states: table keys are distinct, every
mark bit is false outside a collection cycle, and keys are below the id
counter. -/
def Inv (s : State) : Prop :=
  (keysOf s.heap.objects).Nodup ∧
  (∀ p ∈ s.heap.objects, p.2.marked = false) ∧
  (∀ i ∈ keysOf s.heap.objects, i < s.heap.next_id)

/-! ### Basic table lemmas -/

theorem mem_keysOf {t : Table} {i : ObjectId} : i ∈ keysOf t ↔ ∃ h, (i, h) ∈ t := by
  constructor
  · intro hm
    rcases List.mem_map.mp hm with ⟨p, hp, he⟩
    exact ⟨p.2, by simpa [← he] using hp⟩
  · rintro ⟨h, hm⟩
    exact List.mem_map.mpr ⟨(i, h), hm, rfl⟩

theorem lookupT_isSome_of_mem {t : Table} {i : ObjectId} (h : i ∈ keysOf t) :
    ∃ hd, lookupT t i = some hd := by
  induction t with
  | nil => simp [keysOf] at h
  | cons p rest ih =>
    by_cases he : p.1 = i
    · exact ⟨p.2, by simp [lookupT, he]⟩
    · have : i ∈ keysOf rest := by
        rcases List.mem_map.mp h with ⟨q, hq, hqe⟩
        rcases List.mem_cons.mp hq with h1 | h1
        · exact absurd (h1 ▸ hqe) he
        · exact List.mem_map.mpr ⟨q, h1, hqe⟩
      rcases ih this with ⟨hd, hhd⟩
      exact ⟨hd, by simpa [lookupT, he] using hhd⟩

theorem mem_keysOf_of_lookupT {t : Table} {i : ObjectId} {hd : Header}
    (h : lookupT t i = some hd) : i ∈ keysOf t := by
  induction t with
  | nil => simp [lookupT] at h
  | cons p rest ih =>
    by_cases he : p.1 = i
    · simp [keysOf, he.symm]
    · simp only [lookupT, he, if_false] at h
      simpa [keysOf] using Or.inr (by simpa [keysOf] using ih h)

theorem lookupT_mem {t : Table} {i : ObjectId} {hd : Header}
    (h : lookupT t i = some hd) : (i, hd) ∈ t := by
  induction t with
  | nil => simp [lookupT] at h
  | cons p rest ih =>
    by_cases he : p.1 = i
    · simp only [lookupT, he, if_true, Option.some.injEq] at h
      subst he; subst h; exact List.mem_cons_self _ _
    · simp only [lookupT, he, if_false] at h
      exact List.mem_cons_of_mem _ (ih h)

theorem lookupT_eq_none_iff {t : Table} {i : ObjectId} :
    lookupT t i = none ↔ i ∉ keysOf t := by
  constructor
  · intro h hm
    rcases lookupT_isSome_of_mem hm with ⟨hd, hhd⟩
    rw [h] at hhd; exact Option.noConfusion hhd
  · intro hm
    cases hl : lookupT t i with
    | none => rfl
    | some hd => exact absurd (mem_keysOf_of_lookupT hl) hm

theorem lookupT_of_mem_nodup {t : Table} {i : ObjectId} {hd : Header}
    (hn : (keysOf t).Nodup) (h : (i, hd) ∈ t) : lookupT t i = some hd := by
  induction t with
  | nil => simp at h
  | cons p rest ih =>
    obtain ⟨a, b⟩ := p
    have hn1 : a ∉ keysOf rest ∧ (keysOf rest).Nodup := by
      simpa [keysOf] using hn
    rcases List.mem_cons.mp h with h1 | h1
    · rcases Prod.mk.injEq .. ▸ h1 with ⟨hi, hb⟩
      simp [lookupT, hi.symm, hb]
    · have hne : a ≠ i := by
        intro he
        exact hn1.1 (he ▸ mem_keysOf.mpr ⟨hd, h1⟩)
      simp [lookupT, hne, ih hn1.2 h1]

theorem keysOf_sublist {u t : Table} (hs : List.Sublist u t) :
    List.Sublist (keysOf u) (keysOf t) := hs.map Prod.fst

theorem lookupT_sublist {u t : Table} (hs : List.Sublist u t)
    (hn : (keysOf t).Nodup) {i : ObjectId} (hi : i ∈ keysOf u) :
    lookupT u i = lookupT t i := by
  rcases lookupT_isSome_of_mem hi with ⟨hd, hhd⟩
  have hm : (i, hd) ∈ t := hs.mem (lookupT_mem hhd)
  rw [hhd, lookupT_of_mem_nodup hn hm]

/-! ### setMark lemmas -/

theorem keysOf_setMark (t : Table) (i : ObjectId) : keysOf (setMark t i) = keysOf t := by
  induction t with
  | nil => rfl
  | cons p rest ih =>
    by_cases he : p.1 = i <;> simp [setMark, keysOf, he] at ih ⊢ <;> exact ih

theorem lookupT_cons (a : ObjectId) (b : Header) (u : Table) (i : ObjectId) :
    lookupT ((a, b) :: u) i = if a = i then some b else lookupT u i := rfl

theorem setMark_cons (a : ObjectId) (b : Header) (rest : Table) (i : ObjectId) :
    setMark ((a, b) :: rest) i =
      (if a = i then (a, { b with marked := true }) else (a, b)) :: setMark rest i := rfl

theorem lookupT_setMark_self (t : Table) (i : ObjectId) :
    lookupT (setMark t i) i = (lookupT t i).map (fun h => { h with marked := true }) := by
  induction t with
  | nil => rfl
  | cons p rest ih =>
    obtain ⟨a, b⟩ := p
    rw [setMark_cons]
    by_cases he : a = i
    · rw [if_pos he, lookupT_cons, lookupT_cons, if_pos he, if_pos he]
      rfl
    · rw [if_neg he, lookupT_cons, lookupT_cons, if_neg he, if_neg he, ih]

theorem lookupT_setMark_ne (t : Table) {i k : ObjectId} (hne : k ≠ i) :
    lookupT (setMark t i) k = lookupT t k := by
  induction t with
  | nil => rfl
  | cons p rest ih =>
    obtain ⟨a, b⟩ := p
    rw [setMark_cons, lookupT_cons]
    by_cases he : a = i
    · have hak : a ≠ k := fun h => hne (h.symm.trans he)
      rw [if_pos he, lookupT_cons, if_neg hak, if_neg hak, ih]
    · rw [if_neg he, lookupT_cons, ih]

theorem hasEdge_setMark_iff (t : Table) (i j k : ObjectId) :
    hasEdge (setMark t i) j k ↔ hasEdge t j k := by
  unfold hasEdge
  by_cases he : j = i
  · subst he
    rw [lookupT_setMark_self]
    cases lookupT t j with
    | none => simp
    | some h => simp
  · rw [lookupT_setMark_ne t he]

theorem isMarked_setMark (t : Table) {i : ObjectId} (hi : i ∈ keysOf t) :
    isMarked (setMark t i) i := by
  rcases lookupT_isSome_of_mem hi with ⟨hd, hhd⟩
  exact ⟨{ hd with marked := true }, by rw [lookupT_setMark_self, hhd]; rfl, rfl⟩

theorem isMarked_setMark_of_isMarked (t : Table) (i : ObjectId) {k : ObjectId}
    (h : isMarked t k) : isMarked (setMark t i) k := by
  rcases h with ⟨hd, hhd, hm⟩
  by_cases he : k = i
  · subst he
    exact ⟨{ hd with marked := true }, by rw [lookupT_setMark_self, hhd]; rfl, rfl⟩
  · exact ⟨hd, by rw [lookupT_setMark_ne t he]; exact hhd, hm⟩

theorem isMarked_setMark_elim {t : Table} {i k : ObjectId}
    (h : isMarked (setMark t i) k) : isMarked t k ∨ (k = i ∧ k ∈ keysOf t) := by
  rcases h with ⟨hd, hhd, hm⟩
  by_cases he : k = i
  · subst he
    rw [lookupT_setMark_self] at hhd
    cases hl : lookupT t k with
    | none => rw [hl] at hhd; exact Option.noConfusion hhd
    | some h0 => exact Or.inr ⟨rfl, mem_keysOf_of_lookupT hl⟩
  · rw [lookupT_setMark_ne t he] at hhd
    exact Or.inl ⟨hd, hhd, hm⟩

/-! ### sweep lemmas -/

theorem sweep_marks_false (t : Table) : ∀ p ∈ sweep t, p.2.marked = false := by
  intro p hp
  rcases List.mem_map.mp hp with ⟨q, _, he⟩
  rw [← he]

theorem keysOf_sweep_sublist (t : Table) : List.Sublist (keysOf (sweep t)) (keysOf t) := by
  have h1 : keysOf (sweep t) = keysOf (t.filter fun p => p.2.marked) := by
    unfold sweep keysOf
    rw [List.map_map]; rfl
  rw [h1]
  exact keysOf_sublist (List.filter_sublist t)

theorem mem_keysOf_sweep_iff {t : Table} (hn : (keysOf t).Nodup) {i : ObjectId} :
    i ∈ keysOf (sweep t) ↔ isMarked t i := by
  constructor
  · intro hm
    rcases mem_keysOf.mp hm with ⟨h, hmem⟩
    rcases List.mem_map.mp hmem with ⟨q, hq, he⟩
    rcases List.mem_filter.mp hq with ⟨hqt, hqm⟩
    have hqi : q.1 = i := congrArg Prod.fst he
    refine ⟨q.2, ?_, by simpa using hqm⟩
    rw [← hqi]
    exact lookupT_of_mem_nodup hn hqt
  · rintro ⟨h, hl, hm⟩
    have hmem : (i, h) ∈ t := lookupT_mem hl
    have hf : (i, h) ∈ t.filter (fun p => p.2.marked) :=
      List.mem_filter.mpr ⟨hmem, by simpa using hm⟩
    exact mem_keysOf.mpr ⟨{ h with marked := false }, List.mem_map.mpr ⟨(i, h), hf, rfl⟩⟩

theorem lookupT_sweep_of_marked {t : Table} (hn : (keysOf t).Nodup) {i : ObjectId}
    {h : Header} (hl : lookupT t i = some h) (hm : h.marked = true) :
    lookupT (sweep t) i = some { h with marked := false } := by
  have hmem : (i, h) ∈ t := lookupT_mem hl
  have hf : (i, { h with marked := false }) ∈ sweep t :=
    List.mem_map.mpr ⟨(i, h), List.mem_filter.mpr ⟨hmem, by simpa using hm⟩, rfl⟩
  have hns : (keysOf (sweep t)).Nodup := hn.sublist (keysOf_sweep_sublist t)
  exact lookupT_of_mem_nodup hns hf

/-! ### Reachability lemmas -/

theorem hasEdge_sublist {u t : Table} (hs : List.Sublist u t)
    (hn : (keysOf t).Nodup) {j k : ObjectId} (h : hasEdge u j k) : hasEdge t j k := by
  rcases h with ⟨hd, hl, hk⟩
  refine ⟨hd, ?_, hk⟩
  rw [← lookupT_sublist hs hn (mem_keysOf_of_lookupT hl)]
  exact hl

theorem Reaches_of_sublist {u t : Table} (hs : List.Sublist u t)
    (hn : (keysOf t).Nodup) {i k : ObjectId} (h : Reaches u i k) : Reaches t i k := by
  induction h with
  | refl => exact Reaches.refl _
  | step he _ ih => exact Reaches.step (hasEdge_sublist hs hn he) ih

theorem Reaches_snoc {t : Table} {i j k : ObjectId}
    (h : Reaches t i j) (he : hasEdge t j k) : Reaches t i k := by
  induction h with
  | refl => exact Reaches.step he (Reaches.refl _)
  | step he0 _ ih => exact Reaches.step he0 (ih he)

theorem Reaches_inversion {t : Table} {s i : ObjectId} (h : Reaches t s i) :
    s = i ∨ ∃ j, Reaches t s j ∧ hasEdge t j i := by
  induction h with
  | refl => exact Or.inl rfl
  | step he _ ih =>
    rcases ih with rfl | ⟨j, hr, hj⟩
    · exact Or.inr ⟨_, Reaches.refl _, he⟩
    · exact Or.inr ⟨j, Reaches.step he hr, hj⟩

theorem RootReaches_snoc {t : Table} {roots : List ObjectId} {j k : ObjectId}
    (h : RootReaches t roots j) (he : hasEdge t j k) : RootReaches t roots k := by
  rcases h with ⟨s, hs, hc, hr⟩
  exact ⟨s, hs, hc, Reaches_snoc hr he⟩

theorem hasEdge_mem_keysOf {t : Table} {j k : ObjectId} (h : hasEdge t j k) :
    j ∈ keysOf t := by
  rcases h with ⟨hd, hl, _⟩
  exact mem_keysOf_of_lookupT hl

/-! ### Pre-pass lemmas -/

theorem filter_length_eq {α : Type} (l : List α) (p : α → Bool)
    (h : (l.filter p).length = l.length) : l.filter p = l := by
  induction l with
  | nil => rfl
  | cons a rest ih =>
    by_cases hp : p a
    · simp only [List.filter_cons, hp, if_true, List.length_cons] at h ⊢
      rw [ih (Nat.succ_injective h)]
    · exfalso
      simp only [List.filter_cons, hp] at h
      have := List.length_filter_le p rest
      simp at h
      omega

theorem prepassStep_sublist (roots gcs : List ObjectId) (t : Table) :
    List.Sublist (prepassStep roots gcs t) t := List.filter_sublist t

theorem prepassLoop_sublist (roots gcs : List ObjectId) :
    ∀ fuel t, List.Sublist (prepassLoop roots gcs fuel t) t := by
  intro fuel
  induction fuel with
  | zero => intro t; exact List.Sublist.refl t
  | succ fuel ih =>
    intro t
    unfold prepassLoop
    by_cases hl : (prepassStep roots gcs t).length = t.length
    · simpa [hl] using prepassStep_sublist roots gcs t
    · simpa [hl] using (ih (prepassStep roots gcs t)).trans (prepassStep_sublist roots gcs t)

theorem prepassLoop_fixed (roots gcs : List ObjectId) :
    ∀ fuel t, t.length ≤ fuel →
      prepassStep roots gcs (prepassLoop roots gcs fuel t) = prepassLoop roots gcs fuel t := by
  intro fuel
  induction fuel with
  | zero =>
    intro t ht
    have : t = [] := List.length_eq_zero.mp (Nat.le_zero.mp ht)
    subst this; rfl
  | succ fuel ih =>
    intro t ht
    unfold prepassLoop
    by_cases hl : (prepassStep roots gcs t).length = t.length
    · have heq : prepassStep roots gcs t = t := filter_length_eq t _ hl
      simp only [hl, if_true]
      rw [heq, heq]
    · simp only [hl, if_false]
      have hle : (prepassStep roots gcs t).length ≤ t.length :=
        (prepassStep_sublist roots gcs t).length_le
      exact ih _ (by omega)

theorem edgeRefs_pos_of_entry {t : Table} {j : ObjectId} {hj : Header} {i : ObjectId}
    (hm : (j, hj) ∈ t) (hke : i ∈ hj.edges) : 0 < edgeRefs t i := by
  have h1 : hj.edges.count i ∈ t.map (fun p => p.2.edges.count i) :=
    List.mem_map.mpr ⟨(j, hj), hm, rfl⟩
  have h2 : hj.edges.count i ≤ edgeRefs t i :=
    List.single_le_sum (fun y _ => Nat.zero_le y) _ h1
  have h3 : 0 < hj.edges.count i := List.count_pos_iff.mpr hke
  omega

theorem mem_prepassStep {roots gcs : List ObjectId} {t : Table} {i : ObjectId}
    (hi : i ∈ keysOf t)
    (hc : 1 < strong_count roots i ∨ 0 < weak_count gcs t i) :
    i ∈ keysOf (prepassStep roots gcs t) := by
  rcases mem_keysOf.mp hi with ⟨hd, hm⟩
  refine mem_keysOf.mpr ⟨hd, List.mem_filter.mpr ⟨hm, ?_⟩⟩
  rcases hc with hc | hc <;> simp [hc]

theorem prepassStep_keeps_supported {roots gcs : List ObjectId} {S : ObjectId → Prop}
    {t : Table} (hn : (keysOf t).Nodup)
    (hsup : ∀ i, S i → 0 < roots.count i ∨ 0 < gcs.count i ∨ ∃ j, S j ∧ hasEdge t j i)
    {u : Table} (hu : List.Sublist u t) (hSu : ∀ i, S i → i ∈ keysOf u) :
    ∀ i, S i → i ∈ keysOf (prepassStep roots gcs u) := by
  intro i hSi
  refine mem_prepassStep (hSu i hSi) ?_
  rcases hsup i hSi with hc | hc | ⟨j, hSj, hj⟩
  · exact Or.inl (by unfold strong_count; omega)
  · exact Or.inr (by unfold weak_count; omega)
  · rcases hj with ⟨hdj, hlj, hke⟩
    have hju : j ∈ keysOf u := hSu j hSj
    have hlu : lookupT u j = some hdj := by
      rw [lookupT_sublist hu hn hju]; exact hlj
    have : 0 < edgeRefs u i := edgeRefs_pos_of_entry (lookupT_mem hlu) hke
    exact Or.inr (by unfold weak_count; omega)

theorem prepassLoop_keeps_supported {roots gcs : List ObjectId} {S : ObjectId → Prop}
    {t : Table} (hn : (keysOf t).Nodup)
    (hsup : ∀ i, S i → 0 < roots.count i ∨ 0 < gcs.count i ∨ ∃ j, S j ∧ hasEdge t j i) :
    ∀ fuel u, List.Sublist u t → (∀ i, S i → i ∈ keysOf u) →
      ∀ i, S i → i ∈ keysOf (prepassLoop roots gcs fuel u) := by
  intro fuel
  induction fuel with
  | zero => intro u _ hSu; exact hSu
  | succ fuel ih =>
    intro u hu hSu
    unfold prepassLoop
    by_cases hl : (prepassStep roots gcs u).length = u.length
    · simpa [hl] using prepassStep_keeps_supported hn hsup hu hSu
    · simp only [hl, if_false]
      exact ih _ ((prepassStep_sublist roots gcs u).trans hu)
        (prepassStep_keeps_supported hn hsup hu hSu)

theorem rooted_mem_prepassLoop {roots gcs : List ObjectId} {t : Table}
    (hn : (keysOf t).Nodup) {i : ObjectId} (hi : i ∈ keysOf t)
    (hc : 0 < roots.count i) (fuel : Nat) :
    i ∈ keysOf (prepassLoop roots gcs fuel t) := by
  have := @prepassLoop_keeps_supported roots gcs
    (fun j => j ∈ keysOf t ∧ 0 < roots.count j) t hn
    (fun j hj => Or.inl hj.2) fuel t (List.Sublist.refl t) (fun j hj => hj.1)
  exact this i ⟨hi, hc⟩

/-! ### Mark-phase lemmas -/

theorem markLoop_nil (fuel : Nat) (t : Table) : markLoop fuel t [] = some t := by
  cases fuel <;> rfl

theorem markLoop_cons (fuel : Nat) (t : Table) (i : ObjectId) (work : List ObjectId) :
    markLoop (fuel + 1) t (i :: work) =
      match lookupT t i with
      | none => none
      | some h =>
        if h.marked then markLoop fuel t work
        else markLoop fuel (setMark t i) (h.edges.reverse ++ work) := rfl

theorem setMark_not_mem {t : Table} {i : ObjectId} (h : i ∉ keysOf t) :
    setMark t i = t := by
  induction t with
  | nil => rfl
  | cons p rest ih =>
    obtain ⟨a, b⟩ := p
    have ha : a ≠ i := fun he => h (by simp [keysOf, he])
    have hr : i ∉ keysOf rest := fun hm => h (by simp [keysOf] at hm ⊢; exact Or.inr hm)
    rw [setMark_cons, if_neg ha, ih hr]

theorem markLoop_keysOf :
    ∀ fuel t work t', markLoop fuel t work = some t' → keysOf t' = keysOf t := by
  intro fuel
  induction fuel with
  | zero =>
    intro t work t' h
    cases work with
    | nil => rw [markLoop_nil] at h; cases h; rfl
    | cons i rest => exact Option.noConfusion h
  | succ fuel ih =>
    intro t work t' h
    cases work with
    | nil => rw [markLoop_nil] at h; cases h; rfl
    | cons i rest =>
      rw [markLoop_cons] at h
      cases hl : lookupT t i with
      | none => rw [hl] at h; exact Option.noConfusion h
      | some hd =>
        rw [hl] at h
        cases hmk : hd.marked with
        | true => simp only [hmk, if_true] at h; exact ih t rest t' h
        | false =>
          simp only [hmk, if_false] at h
          rw [ih _ _ _ h, keysOf_setMark]

theorem markLoop_edges :
    ∀ fuel t work t', markLoop fuel t work = some t' →
      ∀ i, (lookupT t' i).map Header.edges = (lookupT t i).map Header.edges := by
  intro fuel
  induction fuel with
  | zero =>
    intro t work t' h i
    cases work with
    | nil => rw [markLoop_nil] at h; cases h; rfl
    | cons j rest => exact Option.noConfusion h
  | succ fuel ih =>
    intro t work t' h i
    cases work with
    | nil => rw [markLoop_nil] at h; cases h; rfl
    | cons j rest =>
      rw [markLoop_cons] at h
      cases hl : lookupT t j with
      | none => rw [hl] at h; exact Option.noConfusion h
      | some hd =>
        rw [hl] at h
        cases hmk : hd.marked with
        | true => simp only [hmk, if_true] at h; exact ih t rest t' h i
        | false =>
          simp only [hmk, if_false] at h
          rw [ih _ _ _ h i]
          by_cases he : i = j
          · subst he; rw [lookupT_setMark_self, hl]; rfl
          · rw [lookupT_setMark_ne t he]

theorem hasEdge_of_edges_eq {t t' : Table}
    (he : ∀ i, (lookupT t' i).map Header.edges = (lookupT t i).map Header.edges)
    {j k : ObjectId} (h : hasEdge t j k) : hasEdge t' j k := by
  rcases h with ⟨hd, hl, hk⟩
  have := he j
  rw [hl] at this
  cases hl2 : lookupT t' j with
  | none => rw [hl2] at this; exact Option.noConfusion this
  | some hd2 =>
    rw [hl2] at this
    refine ⟨hd2, hl2, ?_⟩
    have : hd2.edges = hd.edges := by simpa using this
    rw [this]; exact hk

theorem markLoop_isMarked_mono :
    ∀ fuel t work t', markLoop fuel t work = some t' →
      ∀ k, isMarked t k → isMarked t' k := by
  intro fuel
  induction fuel with
  | zero =>
    intro t work t' h k hk
    cases work with
    | nil => rw [markLoop_nil] at h; cases h; exact hk
    | cons j rest => exact Option.noConfusion h
  | succ fuel ih =>
    intro t work t' h k hk
    cases work with
    | nil => rw [markLoop_nil] at h; cases h; exact hk
    | cons j rest =>
      rw [markLoop_cons] at h
      cases hl : lookupT t j with
      | none => rw [hl] at h; exact Option.noConfusion h
      | some hd =>
        rw [hl] at h
        cases hmk : hd.marked with
        | true => simp only [hmk, if_true] at h; exact ih t rest t' h k hk
        | false =>
          simp only [hmk, if_false] at h
          exact ih _ _ _ h k (isMarked_setMark_of_isMarked t j hk)

theorem markLoop_work_marked :
    ∀ fuel t work t', markLoop fuel t work = some t' →
      ∀ s ∈ work, isMarked t' s := by
  intro fuel
  induction fuel with
  | zero =>
    intro t work t' h s hs
    cases work with
    | nil => simp at hs
    | cons j rest => exact Option.noConfusion h
  | succ fuel ih =>
    intro t work t' h s hs
    cases work with
    | nil => simp at hs
    | cons j rest =>
      rw [markLoop_cons] at h
      cases hl : lookupT t j with
      | none => rw [hl] at h; exact Option.noConfusion h
      | some hd =>
        rw [hl] at h
        cases hmk : hd.marked with
        | true =>
          simp only [hmk, if_true] at h
          rcases List.mem_cons.mp hs with rfl | hs2
          · exact markLoop_isMarked_mono fuel t rest t' h s ⟨hd, hl, hmk⟩
          · exact ih t rest t' h s hs2
        | false =>
          simp only [hmk, if_false] at h
          rcases List.mem_cons.mp hs with rfl | hs2
          · exact markLoop_isMarked_mono fuel _ _ t' h s
              (isMarked_setMark t (mem_keysOf_of_lookupT hl))
          · exact ih _ _ t' h s (List.mem_append.mpr (Or.inr hs2))

theorem Reaches_setMark {t : Table} {i : ObjectId} {s k : ObjectId}
    (h : Reaches (setMark t i) s k) : Reaches t s k := by
  induction h with
  | refl => exact Reaches.refl _
  | step he _ ih => exact Reaches.step ((hasEdge_setMark_iff t i _ _).mp he) ih

theorem markLoop_sound :
    ∀ fuel t work t', markLoop fuel t work = some t' →
      ∀ k, isMarked t' k → isMarked t k ∨ ∃ s, s ∈ work ∧ Reaches t s k := by
  intro fuel
  induction fuel with
  | zero =>
    intro t work t' h k hk
    cases work with
    | nil => rw [markLoop_nil] at h; cases h; exact Or.inl hk
    | cons j rest => exact Option.noConfusion h
  | succ fuel ih =>
    intro t work t' h k hk
    cases work with
    | nil => rw [markLoop_nil] at h; cases h; exact Or.inl hk
    | cons j rest =>
      rw [markLoop_cons] at h
      cases hl : lookupT t j with
      | none => rw [hl] at h; exact Option.noConfusion h
      | some hd =>
        rw [hl] at h
        cases hmk : hd.marked with
        | true =>
          simp only [hmk, if_true] at h
          rcases ih t rest t' h k hk with hk2 | ⟨s, hs, hr⟩
          · exact Or.inl hk2
          · exact Or.inr ⟨s, List.mem_cons_of_mem _ hs, hr⟩
        | false =>
          simp only [hmk, if_false] at h
          rcases ih _ _ t' h k hk with hk2 | ⟨s, hs, hr⟩
          · rcases isMarked_setMark_elim hk2 with hk3 | ⟨rfl, _⟩
            · exact Or.inl hk3
            · exact Or.inr ⟨k, List.mem_cons_self _ _, Reaches.refl _⟩
          · rcases List.mem_append.mp hs with hs2 | hs2
            · have hks : s ∈ hd.edges := List.mem_reverse.mp hs2
              exact Or.inr ⟨j, List.mem_cons_self _ _,
                Reaches.step ⟨hd, hl, hks⟩ (Reaches_setMark hr)⟩
            · exact Or.inr ⟨s, List.mem_cons_of_mem _ hs2, Reaches_setMark hr⟩

theorem markLoop_closed :
    ∀ fuel t work t', markLoop fuel t work = some t' →
      (∀ j k, isMarked t j → hasEdge t j k → isMarked t k ∨ k ∈ work) →
      ∀ j k, isMarked t' j → hasEdge t' j k → isMarked t' k := by
  intro fuel
  induction fuel with
  | zero =>
    intro t work t' h hinv j k hj hjk
    cases work with
    | nil =>
      rw [markLoop_nil] at h; cases h
      rcases hinv j k hj hjk with hk | hk
      · exact hk
      · simp at hk
    | cons a rest => exact Option.noConfusion h
  | succ fuel ih =>
    intro t work t' h hinv j k hj hjk
    cases work with
    | nil =>
      rw [markLoop_nil] at h; cases h
      rcases hinv j k hj hjk with hk | hk
      · exact hk
      · simp at hk
    | cons a rest =>
      rw [markLoop_cons] at h
      cases hl : lookupT t a with
      | none => rw [hl] at h; exact Option.noConfusion h
      | some hd =>
        rw [hl] at h
        cases hmk : hd.marked with
        | true =>
          simp only [hmk, if_true] at h
          refine ih t rest t' h ?_ j k hj hjk
          intro j2 k2 hj2 hjk2
          rcases hinv j2 k2 hj2 hjk2 with hk2 | hk2
          · exact Or.inl hk2
          · rcases List.mem_cons.mp hk2 with rfl | hk3
            · exact Or.inl ⟨hd, hl, hmk⟩
            · exact Or.inr hk3
        | false =>
          simp only [hmk, if_false] at h
          refine ih _ _ t' h ?_ j k hj hjk
          intro j2 k2 hj2 hjk2
          have hjk2t : hasEdge t j2 k2 := (hasEdge_setMark_iff t a j2 k2).mp hjk2
          rcases isMarked_setMark_elim hj2 with hj3 | ⟨rfl, hj3⟩
          · rcases hinv j2 k2 hj3 hjk2t with hk2 | hk2
            · exact Or.inl (isMarked_setMark_of_isMarked t a hk2)
            · rcases List.mem_cons.mp hk2 with rfl | hk3
              · exact Or.inl (isMarked_setMark t (mem_keysOf_of_lookupT hl))
              · exact Or.inr (List.mem_append.mpr (Or.inr hk3))
          · rcases hjk2t with ⟨hd2, hl2, hk2⟩
            have : hd2 = hd := by rw [hl] at hl2; exact (Option.some.inj hl2).symm
            subst this
            exact Or.inr (List.mem_append.mpr (Or.inl (List.mem_reverse.mpr hk2)))

theorem markLoop_reach_marked {fuel : Nat} {t : Table} {work : List ObjectId} {t' : Table}
    (h : markLoop fuel t work = some t')
    (hinv : ∀ j k, isMarked t j → hasEdge t j k → isMarked t k ∨ k ∈ work) :
    ∀ j k, isMarked t' j → Reaches t j k → isMarked t' k := by
  have hcl := markLoop_closed fuel t work t' h hinv
  have hed := markLoop_edges fuel t work t' h
  intro j k hj hr
  induction hr with
  | refl => exact hj
  | step he hr2 ih =>
    rename_i a b c
    exact ih (hcl _ _ hj (hasEdge_of_edges_eq hed he))

/-! ### Fuel sufficiency for the mark phase -/

/-- Total length of the edge lists of unmarked entries: a potential function
for the worklist traversal (each `markLoop` step decreases
`work.length + unmarkedEdges t` by exactly one). -/
def unmarkedEdges (t : Table) : Nat :=
  (t.map fun p => if p.2.marked then 0 else p.2.edges.length).sum

theorem unmarkedEdges_le_totalEdges (t : Table) : unmarkedEdges t ≤ totalEdges t := by
  unfold unmarkedEdges totalEdges
  refine List.sum_le_sum ?_
  intro p _
  by_cases h : p.2.marked <;> simp [h]

theorem unmarkedEdges_setMark {t : Table} (hn : (keysOf t).Nodup) {i : ObjectId}
    {h : Header} (hl : lookupT t i = some h) (hmk : h.marked = false) :
    unmarkedEdges (setMark t i) + h.edges.length = unmarkedEdges t := by
  induction t with
  | nil => simp [lookupT] at hl
  | cons p rest ih =>
    obtain ⟨a, b⟩ := p
    have hn1 : a ∉ keysOf rest ∧ (keysOf rest).Nodup := by simpa [keysOf] using hn
    rw [setMark_cons]
    by_cases he : a = i
    · have hb : b = h := by
        rw [lookupT_cons, if_pos he] at hl
        exact Option.some.inj hl
      subst hb
      rw [if_pos he, setMark_not_mem (he ▸ hn1.1)]
      simp [unmarkedEdges, hmk]
      omega
    · rw [lookupT_cons, if_neg he] at hl
      rw [if_neg he]
      have := ih hn1.2 hl
      simp only [unmarkedEdges, List.map_cons, List.sum_cons] at this ⊢
      omega

theorem markLoop_isSome :
    ∀ fuel t work, (keysOf t).Nodup →
      (∀ i, (∃ s, s ∈ work ∧ Reaches t s i) → i ∈ keysOf t) →
      work.length + unmarkedEdges t ≤ fuel →
      ∃ t', markLoop fuel t work = some t' := by
  intro fuel
  induction fuel with
  | zero =>
    intro t work _ _ hf
    cases work with
    | nil => exact ⟨t, markLoop_nil _ _⟩
    | cons i rest => simp at hf
  | succ fuel ih =>
    intro t work hn hreach hf
    cases work with
    | nil => exact ⟨t, markLoop_nil _ _⟩
    | cons i rest =>
      have hik : i ∈ keysOf t :=
        hreach i ⟨i, List.mem_cons_self _ _, Reaches.refl _⟩
      rcases lookupT_isSome_of_mem hik with ⟨h, hl⟩
      rw [markLoop_cons, hl]
      show ∃ t', (if h.marked = true then markLoop fuel t rest
        else markLoop fuel (setMark t i) (h.edges.reverse ++ rest)) = some t'
      cases hmk : h.marked with
      | true =>
        rw [if_pos rfl]
        refine ih t rest hn ?_ ?_
        · intro k ⟨s, hs, hr⟩
          exact hreach k ⟨s, List.mem_cons_of_mem _ hs, hr⟩
        · simp only [List.length_cons] at hf; omega
      | false =>
        rw [if_neg (by simp)]
        refine ih (setMark t i) (h.edges.reverse ++ rest) ?_ ?_ ?_
        · rw [keysOf_setMark]; exact hn
        · intro k ⟨s, hs, hr⟩
          rw [keysOf_setMark]
          have hrt : Reaches t s k := Reaches_setMark hr
          rcases List.mem_append.mp hs with hs2 | hs2
          · exact hreach k ⟨i, List.mem_cons_self _ _,
              Reaches.step ⟨h, hl, List.mem_reverse.mp hs2⟩ hrt⟩
          · exact hreach k ⟨s, List.mem_cons_of_mem _ hs2, hrt⟩
        · have hue := unmarkedEdges_setMark hn hl hmk
          simp only [List.length_append, List.length_reverse, List.length_cons] at hf ⊢
          omega

/-! ### Root set lemmas -/

theorem mem_rootSet_iff {roots : List ObjectId} {t : Table} {i : ObjectId} :
    i ∈ rootSet roots t ↔ i ∈ keysOf t ∧ 0 < roots.count i := by
  unfold rootSet
  constructor
  · intro h
    rcases List.mem_map.mp h with ⟨p, hp, he⟩
    rcases List.mem_filter.mp hp with ⟨hpt, hpc⟩
    have h1 : 1 < strong_count roots p.1 := of_decide_eq_true hpc
    subst he
    refine ⟨mem_keysOf.mpr ⟨p.2, hpt⟩, ?_⟩
    unfold strong_count at h1; omega
  · rintro ⟨hm, hc⟩
    rcases mem_keysOf.mp hm with ⟨h, hmem⟩
    refine List.mem_map.mpr ⟨(i, h), List.mem_filter.mpr ⟨hmem, ?_⟩, rfl⟩
    have : 1 < strong_count roots i := by unfold strong_count; omega
    simpa using this

/-! ### Collection lemmas -/

theorem collectT_nil (roots gcs : List ObjectId) : collectT roots gcs [] = some ([], 0) := rfl

theorem collectT_of_ne {roots gcs : List ObjectId} {t : Table} (h : t ≠ []) :
    collectT roots gcs t =
      match markLoop
          ((rootSet roots (prepassT roots gcs t)).length + totalEdges (prepassT roots gcs t) + 1)
          (prepassT roots gcs t) (rootSet roots (prepassT roots gcs t)) with
      | none => none
      | some t2 => some (sweep t2, t.length - (sweep t2).length) := by
  unfold collectT
  rw [if_neg (by simpa using h)]

theorem collectNoPrepass_of_ne {roots gcs : List ObjectId} {t : Table} (h : t ≠ []) :
    collectNoPrepass roots gcs t =
      match markLoop ((rootSet roots t).length + totalEdges t + 1) t (rootSet roots t) with
      | none => none
      | some t2 => some (sweep t2, t.length - (sweep t2).length) := by
  unfold collectNoPrepass
  rw [if_neg (by simpa using h)]

theorem markSweep_spec {roots : List ObjectId} {tb t1 : Table}
    (hn : (keysOf tb).Nodup) (hmf : ∀ p ∈ tb, p.2.marked = false)
    (hsub : List.Sublist t1 tb)
    (hrooted : ∀ i, i ∈ keysOf tb → 0 < roots.count i → i ∈ keysOf t1)
    {F : Nat} {t2 : Table}
    (h : markLoop F t1 (rootSet roots t1) = some t2) :
    (keysOf (sweep t2)).Nodup ∧
    (∀ p ∈ sweep t2, p.2.marked = false) ∧
    (∀ i, i ∈ keysOf (sweep t2) ↔ RootReaches tb roots i) ∧
    (∀ i, i ∈ keysOf (sweep t2) → lookupT (sweep t2) i = lookupT tb i) := by
  have hn1 : (keysOf t1).Nodup := hn.sublist (keysOf_sublist hsub)
  have hmf1 : ∀ p ∈ t1, p.2.marked = false := fun p hp => hmf p (hsub.mem hp)
  have hkeys2 : keysOf t2 = keysOf t1 := markLoop_keysOf F t1 _ t2 h
  have hn2 : (keysOf t2).Nodup := hkeys2 ▸ hn1
  have hed := markLoop_edges F t1 _ t2 h
  have hunm1 : ∀ i, ¬ isMarked t1 i := by
    rintro i ⟨hd, hl, hmk⟩
    have h0 := hmf1 (i, hd) (lookupT_mem hl)
    rw [h0] at hmk
    exact Bool.noConfusion hmk
  have hinv : ∀ j k, isMarked t1 j → hasEdge t1 j k →
      isMarked t1 k ∨ k ∈ rootSet roots t1 :=
    fun j _ hj _ => absurd hj (hunm1 j)
  have hcl := markLoop_closed F t1 _ t2 h hinv
  have walk : ∀ a b, Reaches tb a b → isMarked t2 a → isMarked t2 b := by
    intro a b hr
    induction hr with
    | refl => exact fun ha => ha
    | step he hr2 ih =>
      rename_i x y z
      intro hx
      have hxk : x ∈ keysOf t1 := by
        rcases hx with ⟨hd, hl, _⟩
        exact hkeys2 ▸ mem_keysOf_of_lookupT hl
      have he1 : hasEdge t1 x y := by
        rcases he with ⟨hd, hl, hky⟩
        exact ⟨hd, by rw [lookupT_sublist hsub hn hxk]; exact hl, hky⟩
      exact ih (hcl x y hx (hasEdge_of_edges_eq hed he1))
  have hmark_iff : ∀ i, isMarked t2 i ↔ RootReaches tb roots i := by
    intro i
    constructor
    · intro hi
      rcases markLoop_sound F t1 _ t2 h i hi with hm1 | ⟨s, hs, hr⟩
      · exact absurd hm1 (hunm1 i)
      · rcases mem_rootSet_iff.mp hs with ⟨hsk, hsc⟩
        exact ⟨s, (keysOf_sublist hsub).mem hsk, hsc, Reaches_of_sublist hsub hn hr⟩
    · rintro ⟨s, hsk, hsc, hr⟩
      have hs1 : s ∈ keysOf t1 := hrooted s hsk hsc
      have hseed : s ∈ rootSet roots t1 := mem_rootSet_iff.mpr ⟨hs1, hsc⟩
      exact walk s i hr (markLoop_work_marked F t1 _ t2 h s hseed)
  refine ⟨hn2.sublist (keysOf_sweep_sublist t2), sweep_marks_false t2,
    fun i => (mem_keysOf_sweep_iff hn2).trans (hmark_iff i), ?_⟩
  intro i hi
  have hm2 : isMarked t2 i := (mem_keysOf_sweep_iff hn2).mp hi
  rcases hm2 with ⟨h2, hl2, hmk2⟩
  rw [lookupT_sweep_of_marked hn2 hl2 hmk2]
  have hik1 : i ∈ keysOf t1 := hkeys2 ▸ mem_keysOf_of_lookupT hl2
  have hedi := hed i
  rw [hl2] at hedi
  cases hl1 : lookupT t1 i with
  | none => rw [hl1] at hedi; exact absurd hedi (by simp)
  | some h1 =>
    rw [hl1] at hedi
    have hedge : h2.edges = h1.edges := by simpa using hedi
    have hm1 : h1.marked = false := hmf1 (i, h1) (lookupT_mem hl1)
    have hlb : lookupT tb i = some h1 := by
      rw [← lookupT_sublist hsub hn hik1]; exact hl1
    rw [hlb]
    have : ({ h2 with marked := false } : Header) = h1 := by
      cases h1; cases h2
      simp_all
    rw [this]

theorem collectT_spec {roots gcs : List ObjectId} {t : Table}
    (hn : (keysOf t).Nodup) (hmf : ∀ p ∈ t, p.2.marked = false)
    {t' : Table} {n : Nat} (h : collectT roots gcs t = some (t', n)) :
    (keysOf t').Nodup ∧
    (∀ p ∈ t', p.2.marked = false) ∧
    (∀ i, i ∈ keysOf t' ↔ RootReaches t roots i) ∧
    (∀ i, i ∈ keysOf t' → lookupT t' i = lookupT t i) ∧
    n = t.length - t'.length := by
  by_cases ht : t = []
  · subst ht
    rw [collectT_nil] at h
    have h2 : (([] : Table), 0) = (t', n) := Option.some.inj h
    obtain rfl := (congrArg Prod.fst h2).symm
    obtain rfl := (congrArg Prod.snd h2).symm
    exact ⟨List.nodup_nil, by simp, by simp [keysOf, RootReaches], by simp [keysOf], rfl⟩
  · rw [collectT_of_ne ht] at h
    cases hm : markLoop
        ((rootSet roots (prepassT roots gcs t)).length + totalEdges (prepassT roots gcs t) + 1)
        (prepassT roots gcs t) (rootSet roots (prepassT roots gcs t)) with
    | none => rw [hm] at h; exact Option.noConfusion h
    | some t2 =>
      rw [hm] at h
      have h2 : (sweep t2, t.length - (sweep t2).length) = (t', n) := Option.some.inj h
      obtain rfl := (congrArg Prod.fst h2).symm
      obtain rfl := (congrArg Prod.snd h2).symm
      have hsub : List.Sublist (prepassT roots gcs t) t := prepassLoop_sublist roots gcs _ t
      have hrooted : ∀ i, i ∈ keysOf t → 0 < roots.count i →
          i ∈ keysOf (prepassT roots gcs t) :=
        fun i hi hc => rooted_mem_prepassLoop hn hi hc _
      obtain ⟨c1, c2, c3, c4⟩ := markSweep_spec hn hmf hsub hrooted hm
      exact ⟨c1, c2, c3, c4, rfl⟩

theorem collectNoPrepass_spec {roots gcs : List ObjectId} {t : Table}
    (hn : (keysOf t).Nodup) (hmf : ∀ p ∈ t, p.2.marked = false)
    {t' : Table} {n : Nat} (h : collectNoPrepass roots gcs t = some (t', n)) :
    (keysOf t').Nodup ∧
    (∀ p ∈ t', p.2.marked = false) ∧
    (∀ i, i ∈ keysOf t' ↔ RootReaches t roots i) ∧
    (∀ i, i ∈ keysOf t' → lookupT t' i = lookupT t i) ∧
    n = t.length - t'.length := by
  by_cases ht : t = []
  · subst ht
    have h0 : collectNoPrepass roots gcs [] = some ([], 0) := rfl
    rw [h0] at h
    have h2 : (([] : Table), 0) = (t', n) := Option.some.inj h
    obtain rfl := (congrArg Prod.fst h2).symm
    obtain rfl := (congrArg Prod.snd h2).symm
    exact ⟨List.nodup_nil, by simp, by simp [keysOf, RootReaches], by simp [keysOf], rfl⟩
  · rw [collectNoPrepass_of_ne ht] at h
    cases hm : markLoop ((rootSet roots t).length + totalEdges t + 1) t (rootSet roots t) with
    | none => rw [hm] at h; exact Option.noConfusion h
    | some t2 =>
      rw [hm] at h
      have h2 : (sweep t2, t.length - (sweep t2).length) = (t', n) := Option.some.inj h
      obtain rfl := (congrArg Prod.fst h2).symm
      obtain rfl := (congrArg Prod.snd h2).symm
      obtain ⟨c1, c2, c3, c4⟩ :=
        markSweep_spec hn hmf (List.Sublist.refl t) (fun i hi _ => hi) hm
      exact ⟨c1, c2, c3, c4, rfl⟩

theorem mem_keys_of_lookup_eq {t t1 : Table} {i : ObjectId}
    (h : lookupT t1 i = lookupT t i) (hi : i ∈ keysOf t1) : i ∈ keysOf t := by
  rcases lookupT_isSome_of_mem hi with ⟨hd, hl⟩
  exact mem_keysOf_of_lookupT (h.symm.trans hl)

theorem length_eq_of_keys_ext {t1 t2 : Table} (h1 : (keysOf t1).Nodup)
    (h2 : (keysOf t2).Nodup) (h : ∀ i, i ∈ keysOf t1 ↔ i ∈ keysOf t2) :
    t1.length = t2.length := by
  have hfin : (keysOf t1).toFinset = (keysOf t2).toFinset := by
    ext i; simp only [List.mem_toFinset]; exact h i
  have e1 : (keysOf t1).toFinset.card = (keysOf t1).length := List.toFinset_card_of_nodup h1
  have e2 : (keysOf t2).toFinset.card = (keysOf t2).length := List.toFinset_card_of_nodup h2
  have l1 : (keysOf t1).length = t1.length := List.length_map t1 Prod.fst
  have l2 : (keysOf t2).length = t2.length := List.length_map t2 Prod.fst
  rw [← l1, ← l2, ← e1, ← e2, hfin]

/-! ### Success transfer between the collector and its pre-pass-free variant -/

theorem collectNoPrepass_isSome_of_collectT {roots gcs : List ObjectId} {t : Table}
    (hn : (keysOf t).Nodup) (hmf : ∀ p ∈ t, p.2.marked = false)
    {t' : Table} {n : Nat} (h : collectT roots gcs t = some (t', n)) :
    ∃ u m, collectNoPrepass roots gcs t = some (u, m) := by
  by_cases ht : t = []
  · subst ht; exact ⟨[], 0, rfl⟩
  · obtain ⟨_, _, c3, c4, _⟩ := collectT_spec hn hmf h
    have hreach : ∀ i, (∃ s, s ∈ rootSet roots t ∧ Reaches t s i) → i ∈ keysOf t := by
      rintro i ⟨s, hs, hr⟩
      rcases mem_rootSet_iff.mp hs with ⟨hsk, hsc⟩
      have hRi : RootReaches t roots i := ⟨s, hsk, hsc, hr⟩
      exact mem_keys_of_lookup_eq (c4 i ((c3 i).mpr hRi)) ((c3 i).mpr hRi)
    obtain ⟨t2, hm2⟩ := markLoop_isSome ((rootSet roots t).length + totalEdges t + 1) t
      (rootSet roots t) hn hreach (by have := unmarkedEdges_le_totalEdges t; omega)
    refine ⟨sweep t2, t.length - (sweep t2).length, ?_⟩
    rw [collectNoPrepass_of_ne ht, hm2]

theorem collectT_isSome_of_collectNoPrepass {roots gcs : List ObjectId} {t : Table}
    (hn : (keysOf t).Nodup) (hmf : ∀ p ∈ t, p.2.marked = false)
    {t' : Table} {n : Nat} (h : collectNoPrepass roots gcs t = some (t', n)) :
    ∃ u m, collectT roots gcs t = some (u, m) := by
  by_cases ht : t = []
  · subst ht; exact ⟨[], 0, rfl⟩
  · obtain ⟨_, _, c3, c4, _⟩ := collectNoPrepass_spec hn hmf h
    have hS : ∀ i, RootReaches t roots i → i ∈ keysOf (prepassT roots gcs t) := by
      intro i hRi
      unfold prepassT
      refine prepassLoop_keeps_supported hn ?_ (t.length + 1) t (List.Sublist.refl t) ?_ i hRi
      · rintro j ⟨s, hsk, hsc, hr⟩
        rcases Reaches_inversion hr with rfl | ⟨k, hrk, hke⟩
        · exact Or.inl hsc
        · exact Or.inr (Or.inr ⟨k, ⟨s, hsk, hsc, hrk⟩, hke⟩)
      · intro j hRj
        exact mem_keys_of_lookup_eq (c4 j ((c3 j).mpr hRj)) ((c3 j).mpr hRj)
    have hsub1 : List.Sublist (prepassT roots gcs t) t := prepassLoop_sublist roots gcs _ t
    have hn1 : (keysOf (prepassT roots gcs t)).Nodup := hn.sublist (keysOf_sublist hsub1)
    have hreach1 : ∀ i, (∃ s, s ∈ rootSet roots (prepassT roots gcs t) ∧
        Reaches (prepassT roots gcs t) s i) → i ∈ keysOf (prepassT roots gcs t) := by
      rintro i ⟨s, hs, hr⟩
      rcases mem_rootSet_iff.mp hs with ⟨hsk, hsc⟩
      exact hS i ⟨s, (keysOf_sublist hsub1).mem hsk, hsc, Reaches_of_sublist hsub1 hn hr⟩
    obtain ⟨t2, hm2⟩ := markLoop_isSome
      ((rootSet roots (prepassT roots gcs t)).length + totalEdges (prepassT roots gcs t) + 1)
      (prepassT roots gcs t) (rootSet roots (prepassT roots gcs t)) hn1 hreach1
      (by have := unmarkedEdges_le_totalEdges (prepassT roots gcs t); omega)
    refine ⟨sweep t2, t.length - (sweep t2).length, ?_⟩
    rw [collectT_of_ne ht, hm2]

/-! ### Invariant preservation along executions -/

theorem collectT_inv {roots gcs : List ObjectId} {t : Table}
    (hn : (keysOf t).Nodup) (hmf : ∀ p ∈ t, p.2.marked = false)
    {t' : Table} {n : Nat} (h : collectT roots gcs t = some (t', n)) :
    (keysOf t').Nodup ∧ (∀ p ∈ t', p.2.marked = false) ∧
    (∀ i ∈ keysOf t', i ∈ keysOf t) := by
  obtain ⟨c1, c2, _, c4, _⟩ := collectT_spec hn hmf h
  exact ⟨c1, c2, fun i hi => mem_keys_of_lookup_eq (c4 i hi) hi⟩

theorem safeMod_zero (a : Nat) : safeMod a 0 = none := rfl

theorem safeMod_pos {b : Nat} (a : Nat) (h : b ≠ 0) : safeMod a b = some (a % b) := by
  unfold safeMod; rw [if_neg h]

theorem allocate_case {s : State} {e : List ObjectId} {s' : State}
    (h : allocate s e = some s') :
    s.heap.collect_threshold ≠ 0 ∧
    s'.roots = s.heap.next_id :: s.roots ∧
    s'.gcs = s.gcs ∧
    s'.heap.next_id = s.heap.next_id + 1 ∧
    s'.heap.collect_threshold = s.heap.collect_threshold ∧
    ∃ t1, s'.heap.objects = (s.heap.next_id, ⟨false, e⟩) :: t1 ∧
      ((s.heap.next_id % s.heap.collect_threshold = 0 ∧
        s'.autoCollects = s.autoCollects + 1 ∧
        ∃ m, collectT s.roots (e ++ s.gcs) s.heap.objects = some (t1, m)) ∨
       (s.heap.next_id % s.heap.collect_threshold ≠ 0 ∧
        s'.autoCollects = s.autoCollects ∧
        t1 = s.heap.objects)) := by
  unfold allocate at h
  by_cases h0 : s.heap.collect_threshold = 0
  · rw [h0, safeMod_zero, Option.none_bind] at h
    exact Option.noConfusion h
  · rw [safeMod_pos _ h0, Option.some_bind] at h
    by_cases hr : s.heap.next_id % s.heap.collect_threshold = 0
    · rw [if_pos hr] at h
      cases hc : collectT s.roots (e ++ s.gcs) s.heap.objects with
      | none => rw [hc, Option.map_none'] at h; exact Option.noConfusion h
      | some pr =>
        rw [hc, Option.map_some'] at h
        obtain rfl := (Option.some.inj h).symm
        exact ⟨h0, rfl, rfl, rfl, rfl, pr.1, rfl, Or.inl ⟨hr, rfl, pr.2, rfl⟩⟩
    · rw [if_neg hr] at h
      obtain rfl := (Option.some.inj h).symm
      exact ⟨h0, rfl, rfl, rfl, rfl, s.heap.objects, rfl, Or.inr ⟨hr, rfl, rfl⟩⟩

theorem allocate_inv {s : State} {e : List ObjectId} {s' : State}
    (hinv : Inv s) (h : allocate s e = some s') : Inv s' := by
  obtain ⟨hn, hmf, hb⟩ := hinv
  obtain ⟨_, _, _, hnext, _, t1, hobj, hcase⟩ := allocate_case h
  have ht1 : (keysOf t1).Nodup ∧ (∀ p ∈ t1, p.2.marked = false) ∧
      (∀ i ∈ keysOf t1, i ∈ keysOf s.heap.objects) := by
    rcases hcase with ⟨_, _, m, hc⟩ | ⟨_, _, rfl⟩
    · exact collectT_inv hn hmf hc
    · exact ⟨hn, hmf, fun i hi => hi⟩
  have hfresh : s.heap.next_id ∉ keysOf t1 := by
    intro hmem
    exact Nat.lt_irrefl _ (hb _ (ht1.2.2 _ hmem))
  refine ⟨?_, ?_, ?_⟩
  · rw [hobj]
    exact List.nodup_cons.mpr ⟨hfresh, ht1.1⟩
  · rw [hobj]
    intro p hp
    rcases List.mem_cons.mp hp with rfl | hp2
    · rfl
    · exact ht1.2.1 p hp2
  · rw [hobj, hnext]
    intro i hi
    have hi1 : i ∈ s.heap.next_id :: keysOf t1 := hi
    rcases List.mem_cons.mp hi1 with rfl | hi2
    · exact Nat.lt_succ_self _
    · exact Nat.lt_succ_of_lt (hb i (ht1.2.2 i hi2))

theorem applyAction_inv {s : State} {a : Action} {s' : State}
    (hinv : Inv s) (h : applyAction s a = some s') : Inv s' := by
  cases a with
  | alloc e => exact allocate_inv hinv h
  | dropRoot i =>
    simp only [applyAction] at h
    by_cases hi : i ∈ s.roots
    · rw [if_pos hi] at h
      obtain rfl := (Option.some.inj h).symm
      exact hinv
    · rw [if_neg hi] at h; exact Option.noConfusion h
  | rootToGc i =>
    simp only [applyAction] at h
    by_cases hi : i ∈ s.roots
    · rw [if_pos hi] at h
      obtain rfl := (Option.some.inj h).symm
      exact hinv
    · rw [if_neg hi] at h; exact Option.noConfusion h
  | rootAsGc i =>
    simp only [applyAction] at h
    by_cases hi : i ∈ s.roots
    · rw [if_pos hi] at h
      obtain rfl := (Option.some.inj h).symm
      exact hinv
    · rw [if_neg hi] at h; exact Option.noConfusion h
  | dropGc i =>
    simp only [applyAction] at h
    by_cases hi : i ∈ s.gcs
    · rw [if_pos hi] at h
      obtain rfl := (Option.some.inj h).symm
      exact hinv
    · rw [if_neg hi] at h; exact Option.noConfusion h
  | collect =>
    obtain ⟨hn, hmf, hb⟩ := hinv
    simp only [applyAction] at h
    cases hc : collectT s.roots s.gcs s.heap.objects with
    | none => rw [hc, Option.map_none'] at h; exact Option.noConfusion h
    | some pr =>
      rw [hc, Option.map_some'] at h
      obtain rfl := (Option.some.inj h).symm
      have hpr : collectT s.roots s.gcs s.heap.objects = some (pr.1, pr.2) := by rw [hc]
      obtain ⟨c1, c2, c5⟩ := collectT_inv hn hmf hpr
      exact ⟨c1, c2, fun i hi => hb i (c5 i hi)⟩

theorem initState_inv (threshold : Nat) : Inv (initState threshold) := by
  refine ⟨List.nodup_nil, ?_, ?_⟩ <;> simp [initState, Heap.new, keysOf]

theorem exec_inv : ∀ acts (s s' : State), Inv s → exec s acts = some s' → Inv s' := by
  intro acts
  induction acts with
  | nil =>
    intro s s' hinv h
    obtain rfl := (Option.some.inj h).symm
    exact hinv
  | cons a rest ih =>
    intro s s' hinv h
    unfold exec at h
    cases ha : applyAction s a with
    | none => rw [ha] at h; exact Option.noConfusion h
    | some s1 =>
      rw [ha] at h
      exact ih s1 s' (applyAction_inv hinv ha) h

/-! ### The mark phase only raises mark bits -/

/-- Raise the mark bits selected by `m` (a canonical form for what `markLoop`
does to the table). -/
def updMark (m : ObjectId → Bool) (t : Table) : Table :=
  t.map fun p => (p.1, ⟨p.2.marked || m p.1, p.2.edges⟩)

theorem updMark_false (t : Table) : updMark (fun _ => false) t = t := by
  induction t with
  | nil => rfl
  | cons p rest ih =>
    obtain ⟨a, b⟩ := p
    cases b
    simp [updMark]

theorem setMark_eq_updMark (t : Table) (i : ObjectId) :
    setMark t i = updMark (fun j => decide (j = i)) t := by
  induction t with
  | nil => rfl
  | cons p rest ih =>
    obtain ⟨a, b⟩ := p
    cases b with
    | mk mk0 ed0 =>
      rw [setMark_cons]
      by_cases he : a = i
      · simp [updMark, he] at ih ⊢
        exact ih
      · simp [updMark, he] at ih ⊢
        exact ih

theorem updMark_updMark (m m2 : ObjectId → Bool) (t : Table) :
    updMark m (updMark m2 t) = updMark (fun j => m2 j || m j) t := by
  induction t with
  | nil => rfl
  | cons p rest ih =>
    obtain ⟨a, b⟩ := p
    simp [updMark, Bool.or_assoc]

theorem markLoop_updMark :
    ∀ fuel t work t', markLoop fuel t work = some t' →
      ∃ m, t' = updMark m t := by
  intro fuel
  induction fuel with
  | zero =>
    intro t work t' h
    cases work with
    | nil => rw [markLoop_nil] at h; cases h; exact ⟨fun _ => false, (updMark_false t).symm⟩
    | cons i rest => exact Option.noConfusion h
  | succ fuel ih =>
    intro t work t' h
    cases work with
    | nil => rw [markLoop_nil] at h; cases h; exact ⟨fun _ => false, (updMark_false t).symm⟩
    | cons i rest =>
      rw [markLoop_cons] at h
      cases hl : lookupT t i with
      | none => rw [hl] at h; exact Option.noConfusion h
      | some hd =>
        rw [hl] at h
        cases hmk : hd.marked with
        | true => simp only [hmk, if_true] at h; exact ih t rest t' h
        | false =>
          simp only [hmk, if_false] at h
          rcases ih _ _ t' h with ⟨m, hm⟩
          refine ⟨fun j => decide (j = i) || m j, ?_⟩
          rw [hm, setMark_eq_updMark, updMark_updMark]

theorem sweep_updMark_of_allMarked {t : Table} {m : ObjectId → Bool}
    (hmf : ∀ p ∈ t, p.2.marked = false)
    (hall : ∀ p ∈ updMark m t, p.2.marked = true) :
    sweep (updMark m t) = t := by
  induction t with
  | nil => rfl
  | cons p rest ih =>
    obtain ⟨a, b⟩ := p
    cases b with
    | mk mk0 ed0 =>
      have hb : mk0 = false := hmf (a, ⟨mk0, ed0⟩) (List.mem_cons_self _ _)
      subst hb
      have hhd : (false || m a) = true := by
        have := hall (a, ⟨false || m a, ed0⟩) (List.mem_cons_self _ _)
        exact this
      have ihr : sweep (updMark m rest) = rest :=
        ih (fun p hp => hmf p (List.mem_cons_of_mem _ hp))
          (fun p hp => hall p (List.mem_cons_of_mem _ hp))
      show sweep ((a, ⟨false || m a, ed0⟩) :: updMark m rest) = (a, ⟨false, ed0⟩) :: rest
      unfold sweep at ihr ⊢
      rw [List.filter_cons]
      simp only [hhd, if_true, List.map_cons]
      rw [ihr]

/-! ### Reachability transport through a completed collection -/

theorem Reaches_post_to_pre {t t1 : Table}
    (c4 : ∀ i, i ∈ keysOf t1 → lookupT t1 i = lookupT t i) :
    ∀ a b, Reaches t1 a b → Reaches t a b := by
  intro a b hr
  induction hr with
  | refl => exact Reaches.refl _
  | step he hr2 ih =>
    rcases he with ⟨hd, hl, hk⟩
    have hmem := mem_keysOf_of_lookupT hl
    exact Reaches.step ⟨hd, ((c4 _ hmem).symm.trans hl).symm ▸ rfl, hk⟩ ih

theorem collectT_second {roots gcs : List ObjectId} {t t' : Table} {n : Nat}
    (hn : (keysOf t).Nodup) (hmf : ∀ p ∈ t, p.2.marked = false)
    (h : collectT roots gcs t = some (t', n)) :
    collectT roots gcs t' = some (t', 0) := by
  obtain ⟨c1, c2, c3, c4, _⟩ := collectT_spec hn hmf h
  by_cases ht2 : t' = []
  · subst ht2; exact collectT_nil roots gcs
  · -- transport reachability from the pre-collection table into the survivors
    have hB : ∀ j k, Reaches t j k → RootReaches t roots j → Reaches t' j k := by
      intro j k hr
      induction hr with
      | refl => intro _; exact Reaches.refl _
      | step he hr2 ih =>
        rename_i x y z
        intro hRx
        have hx2 : x ∈ keysOf t' := (c3 x).mpr hRx
        rcases he with ⟨hd, hl, hk⟩
        have hl2 : lookupT t' x = some hd := (c4 x hx2).trans hl
        exact Reaches.step ⟨hd, hl2, hk⟩ (ih (RootReaches_snoc hRx ⟨hd, hl, hk⟩))
    have hC : ∀ i, i ∈ keysOf t' → RootReaches t' roots i := by
      intro i hi
      rcases (c3 i).mp hi with ⟨s, hsk, hsc, hr⟩
      have hs2 : s ∈ keysOf t' := (c3 s).mpr ⟨s, hsk, hsc, Reaches.refl _⟩
      exact ⟨s, hs2, hsc, hB s i hr ⟨s, hsk, hsc, Reaches.refl _⟩⟩
    have hF : ∀ a b, Reaches t' a b → Reaches t a b := Reaches_post_to_pre c4
    have hRmem : ∀ i, RootReaches t' roots i → i ∈ keysOf t' := by
      rintro i ⟨s, hsk, hsc, hr⟩
      have hskt : s ∈ keysOf t := mem_keys_of_lookup_eq (c4 s hsk) hsk
      exact (c3 i).mpr ⟨s, hskt, hsc, hF s i hr⟩
    -- the pre-pass keeps the whole table
    have hE : prepassT roots gcs t' = t' := by
      have hstep : prepassStep roots gcs t' = t' := by
        refine List.filter_eq_self.mpr ?_
        intro p hp
        have hkey : p.1 ∈ keysOf t' := mem_keysOf.mpr ⟨p.2, by
          cases p; exact hp⟩
        rcases hC p.1 hkey with ⟨s, hsk, hsc, hr⟩
        rcases Reaches_inversion hr with rfl | ⟨j, hrj, hje⟩
        · have : 1 < strong_count roots p.1 := by unfold strong_count; omega
          simp [this]
        · rcases hje with ⟨hdj, hlj, hke⟩
          have : 0 < edgeRefs t' p.1 := edgeRefs_pos_of_entry (lookupT_mem hlj) hke
          have hw : 0 < weak_count gcs t' p.1 := by unfold weak_count; omega
          simp [hw]
      unfold prepassT prepassLoop
      rw [hstep]
      simp
    -- the mark phase succeeds and marks the whole table
    have hreach : ∀ i, (∃ s, s ∈ rootSet roots t' ∧ Reaches t' s i) → i ∈ keysOf t' := by
      rintro i ⟨s, hs, hr⟩
      rcases mem_rootSet_iff.mp hs with ⟨hsk, hsc⟩
      exact hRmem i ⟨s, hsk, hsc, hr⟩
    obtain ⟨t2, hm2⟩ := markLoop_isSome
      ((rootSet roots t').length + totalEdges t' + 1) t' (rootSet roots t') c1 hreach
      (by have := unmarkedEdges_le_totalEdges t'; omega)
    have hkeys2 : keysOf t2 = keysOf t' := markLoop_keysOf _ _ _ _ hm2
    have hn2 : (keysOf t2).Nodup := hkeys2 ▸ c1
    have hallk : ∀ i, i ∈ keysOf t' → isMarked t2 i := by
      intro i hi
      rcases hC i hi with ⟨s, hsk, hsc, hr⟩
      have hseed : s ∈ rootSet roots t' := mem_rootSet_iff.mpr ⟨hsk, hsc⟩
      have hms : isMarked t2 s := markLoop_work_marked _ _ _ _ hm2 s hseed
      have hinv : ∀ j k, isMarked t' j → hasEdge t' j k →
          isMarked t' k ∨ k ∈ rootSet roots t' := by
        rintro j k ⟨hd, hl, hmk⟩ _
        have := c2 (j, hd) (lookupT_mem hl)
        rw [this] at hmk
        exact Bool.noConfusion hmk
      exact markLoop_reach_marked hm2 hinv s i hms hr
    have hall : ∀ p ∈ t2, p.2.marked = true := by
      intro p hp
      have hkey : p.1 ∈ keysOf t2 := mem_keysOf.mpr ⟨p.2, by cases p; exact hp⟩
      rcases hallk p.1 (hkeys2 ▸ hkey) with ⟨hd, hl, hmk⟩
      have : lookupT t2 p.1 = some p.2 := lookupT_of_mem_nodup hn2 (by cases p; exact hp)
      rw [this] at hl
      rw [← Option.some.inj hl] at hmk
      exact hmk
    rcases markLoop_updMark _ _ _ _ hm2 with ⟨m, rfl⟩
    have hsweep : sweep (updMark m t') = t' := sweep_updMark_of_allMarked c2 hall
    rw [collectT_of_ne ht2, hE, hm2]
    show some (sweep (updMark m t'), t'.length - (sweep (updMark m t')).length) = some (t', 0)
    rw [hsweep, Nat.sub_self]

/-! ### Counting the automatic epoch triggers -/

/-- Number of ids in the window `[n, n + k)` that are congruent to 0 modulo
`T` (the ids on which the allocation epoch trigger fires). -/
def countTrig (T n k : Nat) : Nat :=
  match k with
  | 0 => 0
  | k + 1 => (if n % T = 0 then 1 else 0) + countTrig T (n + 1) k

theorem countTrig_append (T : Nat) :
    ∀ j n l, countTrig T n (j + l) = countTrig T n j + countTrig T (n + j) l := by
  intro j
  induction j with
  | zero => intro n l; simp [countTrig]
  | succ j ih =>
    intro n l
    have he : j + 1 + l = (j + l) + 1 := by omega
    rw [he]
    show (if n % T = 0 then 1 else 0) + countTrig T (n + 1) (j + l) = _
    rw [ih (n + 1) l]
    show _ = (if n % T = 0 then 1 else 0) + countTrig T (n + 1) j + countTrig T (n + (j + 1)) l
    have he2 : n + 1 + j = n + (j + 1) := by omega
    rw [he2]
    omega

theorem countTrig_block {T : Nat} (hT : T ≠ 0) (n : Nat) (hn : n % T = 0) :
    1 ≤ countTrig T n T := by
  cases T with
  | zero => exact absurd rfl hT
  | succ m =>
    show 1 ≤ (if n % (m + 1) = 0 then 1 else 0) + countTrig (m + 1) (n + 1) m
    rw [if_pos hn]
    omega

theorem countTrig_mul {T : Nat} (hT : T ≠ 0) :
    ∀ q n, n % T = 0 → q ≤ countTrig T n (T * q) := by
  intro q
  induction q with
  | zero => intro n _; exact Nat.zero_le _
  | succ q ih =>
    intro n hn
    have he : T * (q + 1) = T + T * q := by ring
    rw [he, countTrig_append T T n (T * q)]
    have h1 : 1 ≤ countTrig T n T := countTrig_block hT n hn
    have h2 : q ≤ countTrig T (n + T) (T * q) := ih (n + T) (by rw [Nat.add_mod_right]; exact hn)
    omega

theorem countTrig_ge_div {T : Nat} (hT : T ≠ 0) (k : Nat) :
    k / T ≤ countTrig T 0 k := by
  have hk : k = T * (k / T) + k % T := (Nat.div_add_mod k T).symm
  calc k / T ≤ countTrig T 0 (T * (k / T)) := countTrig_mul hT (k / T) 0 (Nat.zero_mod T)
    _ ≤ countTrig T 0 (T * (k / T)) + countTrig T (0 + T * (k / T)) (k % T) := Nat.le_add_right _ _
    _ = countTrig T 0 (T * (k / T) + k % T) := (countTrig_append T (T * (k / T)) 0 (k % T)).symm
    _ = countTrig T 0 k := by rw [← hk]

theorem exec_allocs_count :
    ∀ (ess : List (List ObjectId)) (s s' : State),
      exec s (ess.map Action.alloc) = some s' →
      s'.autoCollects =
        s.autoCollects + countTrig s.heap.collect_threshold s.heap.next_id ess.length := by
  intro ess
  induction ess with
  | nil =>
    intro s s' h
    obtain rfl := (Option.some.inj h).symm
    simp [countTrig]
  | cons e rest ih =>
    intro s s' h
    have hex : exec s (Action.alloc e :: rest.map Action.alloc) = some s' := h
    unfold exec at hex
    cases ha : applyAction s (Action.alloc e) with
    | none => rw [ha] at hex; exact Option.noConfusion hex
    | some s1 =>
      rw [ha] at hex
      have hal : allocate s e = some s1 := ha
      obtain ⟨_, _, _, hnext, hthr, _, _, hcase⟩ := allocate_case hal
      have hrec := ih s1 s' hex
      show s'.autoCollects = s.autoCollects +
        ((if s.heap.next_id % s.heap.collect_threshold = 0 then 1 else 0) +
          countTrig s.heap.collect_threshold (s.heap.next_id + 1) rest.length)
      rw [hrec, hthr, hnext]
      rcases hcase with ⟨hr, hauto, _⟩ | ⟨hr, hauto, _⟩
      · rw [hauto, if_pos hr]; omega
      · rw [hauto, if_neg hr]; omega

/-! ### The claims -/

/-- Claim C1: for every sequence of allocations, Root drops/conversions and
collect calls, after a collect call completes the table contains exactly the
objects in the transitive closure, over Gc edges reported by the payloads, of
the objects that currently have at least one live Root handle, and
object_count equals the size of that closure. -/
theorem C1_collect_table_is_root_closure (threshold : Nat) (acts : List Action)
    (s s' : State) (hex : exec (initState threshold) acts = some s)
    (hc : applyAction s Action.collect = some s') :
    (∀ i, i ∈ keysOf s'.heap.objects ↔ RootReaches s.heap.objects s.roots i) ∧
    object_count s'.heap = Set.ncard { i | RootReaches s.heap.objects s.roots i } := by
  obtain ⟨hn, hmf, _⟩ := exec_inv acts _ s (initState_inv threshold) hex
  simp only [applyAction] at hc
  cases hcc : collectT s.roots s.gcs s.heap.objects with
  | none => rw [hcc, Option.map_none'] at hc; exact Option.noConfusion hc
  | some pr =>
    rw [hcc, Option.map_some'] at hc
    obtain rfl := (Option.some.inj hc).symm
    have hpr : collectT s.roots s.gcs s.heap.objects = some (pr.1, pr.2) := by rw [hcc]
    obtain ⟨c1, _, c3, _, _⟩ := collectT_spec hn hmf hpr
    refine ⟨c3, ?_⟩
    show pr.1.length = Set.ncard { i | RootReaches s.heap.objects s.roots i }
    have hset : { i | RootReaches s.heap.objects s.roots i } =
        ↑(keysOf pr.1).toFinset := by
      ext i
      rw [Set.mem_setOf_eq, Finset.mem_coe, List.mem_toFinset]
      exact (c3 i).symm
    rw [hset, Set.ncard_coe_Finset, List.toFinset_card_of_nodup c1]
    exact (List.length_map pr.1 Prod.fst).symm

theorem C1_witness :
    object_count (⟨⟨[], 1, 32⟩, [], [0], 1⟩ : State).heap =
      Set.ncard { i | RootReaches (⟨⟨[(0, ⟨false, []⟩)], 1, 32⟩, [], [0], 1⟩ : State).heap.objects
        (⟨⟨[(0, ⟨false, []⟩)], 1, 32⟩, [], [0], 1⟩ : State).roots i } :=
  (C1_collect_table_is_root_closure 32 [Action.alloc [], Action.rootToGc 0]
    ⟨⟨[(0, ⟨false, []⟩)], 1, 32⟩, [], [0], 1⟩ ⟨⟨[], 1, 32⟩, [], [0], 1⟩
    (by decide) (by decide)).2

/-- Claim C2: a two-object reference cycle, where the only edge of each
member points at the other and neither member has a live Root, is fully
reclaimed by a single collect call, which removes both objects and reports 2
objects reclaimed (object_count drops from 2 to 0). -/
theorem C2_cycle_collected (a b : ObjectId) (roots gcs : List ObjectId)
    (hab : a ≠ b) (hra : roots.count a = 0) (hrb : roots.count b = 0) :
    collectT roots gcs [(a, ⟨false, [b]⟩), (b, ⟨false, [a]⟩)] = some ([], 2) := by
  have hba : b ≠ a := fun h => hab h.symm
  set t : Table := [(a, ⟨false, [b]⟩), (b, ⟨false, [a]⟩)] with ht
  have hstep : prepassStep roots gcs t = t := by
    refine List.filter_eq_self.mpr ?_
    intro p hp
    have hwa : 0 < weak_count gcs t a := by
      have : 0 < edgeRefs t a :=
        @edgeRefs_pos_of_entry t b ⟨false, [a]⟩ a (by simp [ht]) (by simp)
      unfold weak_count; omega
    have hwb : 0 < weak_count gcs t b := by
      have : 0 < edgeRefs t b :=
        @edgeRefs_pos_of_entry t a ⟨false, [b]⟩ b (by simp [ht]) (by simp)
      unfold weak_count; omega
    rcases List.mem_cons.mp hp with rfl | hp2
    · simp [hwa]
    · rcases List.mem_cons.mp hp2 with rfl | hp3
      · simp [hwb]
      · simp at hp3
  have hpre : prepassT roots gcs t = t := by
    unfold prepassT prepassLoop
    rw [hstep]
    simp
  have hseeds : rootSet roots t = [] := by
    unfold rootSet
    have hca : ¬ (1 < strong_count roots a) := by unfold strong_count; omega
    have hcb : ¬ (1 < strong_count roots b) := by unfold strong_count; omega
    simp [ht, hca, hcb]
  have hsweep : sweep t = [] := by simp [sweep, ht]
  have htne : t ≠ [] := by simp [ht]
  rw [collectT_of_ne htne, hpre, hseeds, markLoop_nil]
  show some (sweep t, t.length - (sweep t).length) = some ([], 2)
  rw [hsweep]
  rfl

theorem C2_witness :
    collectT [] [] [(0, ⟨false, [1]⟩), (1, ⟨false, [0]⟩)] = some ([], 2) :=
  C2_cycle_collected 0 1 [] [] (by decide) rfl rfl

/-- Claim C3: collect returns the number of objects reclaimed, which equals
the table size at the start of the call minus the table size at the end; on
an empty heap it is a no-op that returns 0 and leaves the table empty (so
object_count stays 0). -/
theorem C3_collect_returns_reclaimed (roots gcs : List ObjectId) :
    (∀ t t' n, collectT roots gcs t = some (t', n) → n = t.length - t'.length) ∧
    collectT roots gcs [] = some ([], 0) := by
  constructor
  · intro t t' n h
    by_cases ht : t = []
    · subst ht
      rw [collectT_nil] at h
      have h2 : (([] : Table), 0) = (t', n) := Option.some.inj h
      obtain rfl := (congrArg Prod.fst h2).symm
      obtain rfl := (congrArg Prod.snd h2).symm
      rfl
    · rw [collectT_of_ne ht] at h
      cases hm : markLoop
          ((rootSet roots (prepassT roots gcs t)).length + totalEdges (prepassT roots gcs t) + 1)
          (prepassT roots gcs t) (rootSet roots (prepassT roots gcs t)) with
      | none => rw [hm] at h; exact Option.noConfusion h
      | some t2 =>
        rw [hm] at h
        have h2 : (sweep t2, t.length - (sweep t2).length) = (t', n) := Option.some.inj h
        obtain rfl := (congrArg Prod.fst h2).symm
        obtain rfl := (congrArg Prod.snd h2).symm
        rfl
  · exact collectT_nil roots gcs

theorem C3_witness :
    (1 : Nat) = ([(0, (⟨false, []⟩ : Header))] : Table).length - ([] : Table).length :=
  (C3_collect_returns_reclaimed [] []).1 [(0, ⟨false, []⟩)] [] 1 (by decide)

/-- Claim C4: with collection threshold T at least 1, N allocations trigger
at least N / T automatic collections; an automatic collection fires exactly
when the freshly assigned id is congruent to 0 modulo the threshold, and it
runs before the new object is inserted, so the new object is present in the
table afterwards. -/
theorem C4_epoch_trigger (T : Nat) (hT : 1 ≤ T) :
    (∀ (ess : List (List ObjectId)) (s' : State),
        exec (initState T) (ess.map Action.alloc) = some s' →
        ess.length / T ≤ s'.autoCollects) ∧
    (∀ (s : State) (e : List ObjectId) (s' : State), allocate s e = some s' →
        (s'.autoCollects = s.autoCollects + 1 ↔
          s.heap.next_id % s.heap.collect_threshold = 0) ∧
        s.heap.next_id ∈ keysOf s'.heap.objects) := by
  constructor
  · intro ess s' hex
    have hc := exec_allocs_count ess (initState T) s' hex
    have hd : ess.length / T ≤ countTrig T 0 ess.length :=
      countTrig_ge_div (by omega) ess.length
    simp only [initState, Heap.new] at hc
    omega
  · intro s e s' hal
    obtain ⟨_, _, _, _, _, t1, hobj, hcase⟩ := allocate_case hal
    constructor
    · rcases hcase with ⟨hr, hauto, _⟩ | ⟨hr, hauto, _⟩
      · rw [hauto]; exact ⟨fun _ => hr, fun _ => rfl⟩
      · rw [hauto]
        constructor
        · intro hcontra
          exact absurd hcontra (by omega)
        · intro h0
          exact absurd h0 hr
    · rw [hobj]
      exact List.mem_cons_self _ _

theorem C4_witness :
    ([([] : List ObjectId), [], []]).length / 2 ≤
      (⟨⟨[(2, ⟨false, []⟩), (1, ⟨false, []⟩), (0, ⟨false, []⟩)], 3, 2⟩,
        [2, 1, 0], [], 2⟩ : State).autoCollects :=
  (C4_epoch_trigger 2 (by decide)).1 [[], [], []]
    ⟨⟨[(2, ⟨false, []⟩), (1, ⟨false, []⟩), (0, ⟨false, []⟩)], 3, 2⟩, [2, 1, 0], [], 2⟩
    (by decide)

/-- Claim C5: every mark bit is false whenever control is outside a
collection cycle: in every reachable state all stored headers are unmarked,
allocate inserts its header with mark = false, and every header surviving a
collect call has its mark bit cleared back to false. -/
theorem C5_marks_false :
    (∀ (threshold : Nat) (acts : List Action) (s : State),
        exec (initState threshold) acts = some s →
        ∀ p ∈ s.heap.objects, p.2.marked = false) ∧
    (∀ (s : State) (e : List ObjectId) (s' : State), allocate s e = some s' →
        lookupT s'.heap.objects s.heap.next_id = some ⟨false, e⟩) ∧
    (∀ (roots gcs : List ObjectId) (t t' : Table) (n : Nat),
        collectT roots gcs t = some (t', n) → ∀ p ∈ t', p.2.marked = false) := by
  refine ⟨?_, ?_, ?_⟩
  · intro threshold acts s hex
    exact (exec_inv acts _ s (initState_inv threshold) hex).2.1
  · intro s e s' hal
    obtain ⟨_, _, _, _, _, t1, hobj, _⟩ := allocate_case hal
    rw [hobj, lookupT_cons, if_pos rfl]
  · intro roots gcs t t' n h
    by_cases ht : t = []
    · subst ht
      rw [collectT_nil] at h
      have h2 : (([] : Table), 0) = (t', n) := Option.some.inj h
      obtain rfl := (congrArg Prod.fst h2).symm
      intro p hp
      simp at hp
    · rw [collectT_of_ne ht] at h
      cases hm : markLoop
          ((rootSet roots (prepassT roots gcs t)).length + totalEdges (prepassT roots gcs t) + 1)
          (prepassT roots gcs t) (rootSet roots (prepassT roots gcs t)) with
      | none => rw [hm] at h; exact Option.noConfusion h
      | some t2 =>
        rw [hm] at h
        have h2 : (sweep t2, t.length - (sweep t2).length) = (t', n) := Option.some.inj h
        obtain rfl := (congrArg Prod.fst h2).symm
        exact sweep_marks_false t2

theorem C5_witness :
    lookupT (⟨⟨[(0, ⟨false, []⟩)], 1, 32⟩, [0], [], 1⟩ : State).heap.objects 0 =
      some ⟨false, []⟩ :=
  C5_marks_false.2.1 (initState 32) [] ⟨⟨[(0, ⟨false, []⟩)], 1, 32⟩, [0], [], 1⟩ (by decide)

/-- Claim C6: a Gc handle does not by itself keep its target alive: any
object not reachable from a live Root is gone from the table after a
completed collect, even if Gc handles to it are still held externally; in the
concrete scenario of allocating one edge-free payload, converting its Root to
a Gc and calling collect, object_count is 0. -/
theorem C6_gc_not_owning :
    (∀ (threshold : Nat) (acts : List Action) (s s' : State) (i : ObjectId),
        exec (initState threshold) acts = some s →
        applyAction s Action.collect = some s' →
        ¬ RootReaches s.heap.objects s.roots i →
        i ∉ keysOf s'.heap.objects) ∧
    (∃ s : State,
        exec (initState 32) [.alloc [], .rootToGc 0, .collect] = some s ∧
        object_count s.heap = 0) := by
  constructor
  · intro threshold acts s s' i hex hc hnr
    obtain ⟨hn, hmf, _⟩ := exec_inv acts _ s (initState_inv threshold) hex
    simp only [applyAction] at hc
    cases hcc : collectT s.roots s.gcs s.heap.objects with
    | none => rw [hcc, Option.map_none'] at hc; exact Option.noConfusion hc
    | some pr =>
      rw [hcc, Option.map_some'] at hc
      obtain rfl := (Option.some.inj hc).symm
      have hpr : collectT s.roots s.gcs s.heap.objects = some (pr.1, pr.2) := by rw [hcc]
      obtain ⟨_, _, c3, _, _⟩ := collectT_spec hn hmf hpr
      intro hmem
      exact hnr ((c3 i).mp hmem)
  · exact ⟨⟨⟨[], 1, 32⟩, [], [0], 1⟩, by decide, rfl⟩

theorem C6_witness :
    (0 : ObjectId) ∉ keysOf (⟨⟨[], 1, 32⟩, [], [0], 1⟩ : State).heap.objects :=
  C6_gc_not_owning.1 32 [Action.alloc [], Action.rootToGc 0]
    ⟨⟨[(0, ⟨false, []⟩)], 1, 32⟩, [], [0], 1⟩ ⟨⟨[], 1, 32⟩, [], [0], 1⟩ 0
    (by decide) (by decide)
    (by rintro ⟨s0, _, hc0, _⟩; simp at hc0)

/-- Claim C7: resolving a Gc whose target object has been reclaimed is fatal
with no recoverable result: dereferencing yields the payload exactly while
the target is present in the table and the panic (modelled as none) happens
exactly when it is absent, and an edge popped during the mark phase whose
target is no longer live aborts the collection fatally. -/
theorem C7_dangling_gc_fatal :
    (∀ (t : Table) (i : ObjectId), derefGc t i = none ↔ i ∉ keysOf t) ∧
    (∀ (t : Table) (i : ObjectId) (e : List ObjectId),
        derefGc t i = some e ↔ ∃ h, lookupT t i = some h ∧ h.edges = e) ∧
    (∀ (fuel : Nat) (t : Table) (i : ObjectId) (rest : List ObjectId),
        lookupT t i = none → markLoop (fuel + 1) t (i :: rest) = none) := by
  refine ⟨?_, ?_, ?_⟩
  · intro t i
    unfold derefGc upgrade
    rw [Option.map_eq_none']
    exact lookupT_eq_none_iff
  · intro t i e
    unfold derefGc upgrade
    rw [Option.map_eq_some']
  · intro fuel t i rest hl
    rw [markLoop_cons, hl]

theorem C7_witness : markLoop 1 [] [0] = none :=
  C7_dangling_gc_fatal.2.2 0 [] 0 [] rfl

/-- Claim C8: the pre-pass pruning is an optimization that does not change
the result of collect: on any well-formed table, collect with the pre-pass
and plain mark-and-sweep either both fail or both succeed, with
extensionally equal result tables of equal size and the same reclaimed
count. -/
theorem C8_prepass_is_optimization (roots gcs : List ObjectId) (t : Table)
    (hn : (keysOf t).Nodup) (hmf : ∀ p ∈ t, p.2.marked = false) :
    (collectT roots gcs t = none ∧ collectNoPrepass roots gcs t = none) ∨
    (∃ t1 t2 n, collectT roots gcs t = some (t1, n) ∧
      collectNoPrepass roots gcs t = some (t2, n) ∧
      (∀ i, lookupT t1 i = lookupT t2 i) ∧ t1.length = t2.length) := by
  cases hc : collectT roots gcs t with
  | none =>
    left
    refine ⟨rfl, ?_⟩
    cases hnp : collectNoPrepass roots gcs t with
    | none => rfl
    | some pr2 =>
      have hpr2 : collectNoPrepass roots gcs t = some (pr2.1, pr2.2) := by rw [hnp]
      obtain ⟨u, m, hcs⟩ := collectT_isSome_of_collectNoPrepass hn hmf hpr2
      rw [hc] at hcs
      exact Option.noConfusion hcs
  | some pr =>
    right
    have hpr : collectT roots gcs t = some (pr.1, pr.2) := by rw [hc]
    obtain ⟨u, m, hnp⟩ := collectNoPrepass_isSome_of_collectT hn hmf hpr
    obtain ⟨d1, _, d3, d4, d5⟩ := collectT_spec hn hmf hpr
    obtain ⟨e1, _, e3, e4, e5⟩ := collectNoPrepass_spec hn hmf hnp
    have hkeys : ∀ i, i ∈ keysOf pr.1 ↔ i ∈ keysOf u := fun i => (d3 i).trans (e3 i).symm
    have hlen : pr.1.length = u.length := length_eq_of_keys_ext d1 e1 hkeys
    have hmn : m = pr.2 := by rw [d5, e5, hlen]
    refine ⟨pr.1, u, pr.2, rfl, ?_, ?_, hlen⟩
    · rw [hnp, hmn]
    · intro i
      by_cases hi : i ∈ keysOf pr.1
      · rw [d4 i hi, e4 i ((hkeys i).mp hi)]
      · rw [lookupT_eq_none_iff.mpr hi,
          lookupT_eq_none_iff.mpr (fun h2 => hi ((hkeys i).mpr h2))]

theorem C8_witness :
    (collectT [0] [] [(0, ⟨false, []⟩)] = none ∧
      collectNoPrepass [0] [] [(0, ⟨false, []⟩)] = none) ∨
    (∃ t1 t2 n, collectT [0] [] [(0, ⟨false, []⟩)] = some (t1, n) ∧
      collectNoPrepass [0] [] [(0, ⟨false, []⟩)] = some (t2, n) ∧
      (∀ i, lookupT t1 i = lookupT t2 i) ∧ t1.length = t2.length) :=
  C8_prepass_is_optimization [0] [] [(0, ⟨false, []⟩)] (by decide) (by decide)

/-- Claim C9: under the stated precondition that the threshold passed to new
is at least 1, the epoch-trigger modulo in allocate is well-defined for every
allocation and the division-by-zero failure branch is unreachable, while new
itself stores the given threshold without validating the precondition. -/
theorem C9_threshold_precondition :
    (∀ a T : Nat, 1 ≤ T → safeMod a T = some (a % T)) ∧
    (∀ T : Nat, (Heap.new T).collect_threshold = T) ∧
    (∀ s : State, 1 ≤ s.heap.collect_threshold →
        safeMod s.heap.next_id s.heap.collect_threshold ≠ none) := by
  refine ⟨?_, ?_, ?_⟩
  · intro a T hT
    exact safeMod_pos a (by omega)
  · intro T
    rfl
  · intro s hT
    rw [safeMod_pos _ (by omega)]
    intro hcontra
    exact Option.noConfusion hcontra

theorem C9_witness : safeMod 5 3 = some 2 :=
  C9_threshold_precondition.1 5 3 (by decide)

/-- Claim C10: collect is idempotent: from any reachable state, if collect
succeeds then an immediate second collect with the same live handles reclaims
0 objects and leaves the table unchanged. -/
theorem C10_collect_idempotent (threshold : Nat) (acts : List Action) (s : State)
    (hex : exec (initState threshold) acts = some s) (t' : Table) (n : Nat)
    (h : collectT s.roots s.gcs s.heap.objects = some (t', n)) :
    collectT s.roots s.gcs t' = some (t', 0) := by
  obtain ⟨hn, hmf, _⟩ := exec_inv acts _ s (initState_inv threshold) hex
  exact collectT_second hn hmf h

theorem C10_witness :
    collectT [1] [0] [(1, ⟨false, []⟩)] = some ([(1, ⟨false, []⟩)], 0) :=
  C10_collect_idempotent 32 [Action.alloc [], Action.alloc [], Action.rootToGc 0]
    ⟨⟨[(1, ⟨false, []⟩), (0, ⟨false, []⟩)], 2, 32⟩, [1], [0], 1⟩
    (by decide) [(1, ⟨false, []⟩)] 1 (by decide)

end GcPlayground
